import Mathlib

/-!
cLua: profile decoding, aggregation and coverage summary.

A shallow embedding of `src/clua.go`.

Modelling conventions.
* A Go `string` / `[]byte` is a `List Byte` with `Byte = Fin 256`.
* Go `int` is 64 bits wide (the platform the tool is built for); offsets into the
  buffer and loop counters stay far below `2^63`, so they are natural numbers.
  `uint64` hit counts wrap, which is written `% 2 ^ 64` where the code adds them.
* `map[int]uint64` is an association list with at most one pair per key; only
  lookups, key membership and the maximum of the values are observed.
* The file system is a parameter (`World`): what `ioutil.ReadFile`, `filepath.Abs`
  and `os.Stat` answer.
* A loop that the Go code runs until a `break` is a function with fuel that answers
  `none` when the fuel is used up; the callers pass enough fuel and the theorems
  show a `some` result.
-/

namespace CLua

/-- A byte of a Go string or byte slice. -/
abbrev Byte := Fin 256

/-- A Go string: a sequence of bytes. -/
abbrev Str := List Byte

/-- The bytes of an ASCII literal (used to write tags in examples). -/
def ascii (s : String) : Str := s.toList.map (fun c => Fin.ofNat c.toNat)

/-- The struct `FileData` (lines 16-20): display name, resolved path and the
per-line hit counts. -/
structure FileData where
  file : Str
  path : Str
  line : List (Int × Nat)
deriving DecidableEq, Repr

/-! ## Byte-level helpers of the decode loop -/

/-- The Go slice expression `data[i:j]` for `i ≤ j ≤ len(data)`. -/
def slice (data : Str) (i j : Nat) : Str := (data.drop i).take (j - i)

/-- `binary.LittleEndian.Uint32` / `Uint64` on a slice of 4 / 8 bytes: the first byte
is the least significant one. -/
def littleEndian : Str → Nat
  | [] => 0
  | b :: bs => b.val + 256 * littleEndian bs

/-- The `k` low bytes of `n`, least significant first (the writer side of the record
layout `[uint32 tagLength][tag][uint64 count]`). -/
def putLittleEndian : Nat → Nat → Str
  | 0, _ => []
  | k + 1, n => Fin.ofNat (n % 256) :: putLittleEndian k (n / 256)

/-- One record of the profile format: `[uint32 tagLength][tagLength bytes][uint64 count]`,
little-endian, no padding. -/
def encodeRecord (r : Str × Nat) : Str :=
  putLittleEndian 4 r.1.length ++ r.1 ++ putLittleEndian 8 r.2

/-- A profile buffer made of the given records, in order. -/
def encodeRecords : List (Str × Nat) → Str
  | [] => []
  | r :: rs => encodeRecord r ++ encodeRecords rs

/-- A record that the layout can hold: tag shorter than `2^32` bytes, count a `uint64`. -/
def Complete (r : Str × Nat) : Prop := r.1.length < 2 ^ 32 ∧ r.2 < 2 ^ 64

instance (r : Str × Nat) : Decidable (Complete r) := by
  unfold Complete; exact inferInstance

/-- Lines 68-87 of `parse`: one pass of the decode part of the loop body at offset `i`.
`none` is a `break`; otherwise the tag bytes, the count and the offset after the
record. -/
def readRecord (data : Str) (i : Nat) : Option (Str × Nat × Nat) :=
  if i + 4 > data.length then none
  else
    let strlen := littleEndian (slice data i (i + 4))
    let i := i + 4
    if i + strlen > data.length then none
    else
      let str := slice data i (i + strlen)
      let i := i + strlen
      if i ≥ data.length then none
      else if i + 8 > data.length then none
      else
        let count := littleEndian (slice data i (i + 8))
        let i := i + 8
        some (str, count, i)

/-- The records the loop of `parse` reads from offset `i` on, when no record makes it
return early: the successive results of `readRecord` up to the first `break`. -/
def decodeLoop (data : Str) : Nat → Nat → Option (List (Str × Nat))
  | 0, _ => none
  | fuel + 1, i =>
    match readRecord data i with
    | none => some []
    | some (str, count, j) => (decodeLoop data fuel j).map (fun rs => (str, count) :: rs)

/-- The record sequence of a whole buffer. -/
def decode (data : Str) : Option (List (Str × Nat)) :=
  decodeLoop data (data.length + 1) 0

/-! ## Library functions used by `parse` and `calc` -/

/-- `strings.TrimLeft(s, c)` for a one-byte cutset: drop every leading `c`. -/
def TrimLeft : Str → Byte → Str
  | [], _ => []
  | b :: bs, c => if b = c then TrimLeft bs c else b :: bs

/-- `strings.TrimRight(s, c)` for a one-byte cutset: drop every trailing `c`. -/
def TrimRight (s : Str) (c : Byte) : Str := (TrimLeft s.reverse c).reverse

/-- `strings.Count(s, c)` for a one-byte separator. -/
def Count (s : Str) (c : Byte) : Nat := s.count c

/-- `strings.Split(s, c)` for a one-byte separator: the pieces between the separators,
one more than there are separators. -/
def Split : Str → Byte → List Str
  | [], _ => [[]]
  | b :: bs, c =>
    if b = c then [] :: Split bs c
    else
      match Split bs c with
      | [] => [[b]]
      | p :: ps => (b :: p) :: ps

/-- The value of a string of decimal digits read after the digits already
accumulated in `acc`; `none` when a byte is not a digit. -/
def digitsValue : Str → Nat → Option Nat
  | [], acc => some acc
  | b :: bs, acc =>
    if 48 ≤ b.val ∧ b.val ≤ 57 then digitsValue bs (acc * 10 + (b.val - 48)) else none

/-- `strconv.Atoi` with a 64-bit `int`: an optional sign `+` or `-`, then one or more
decimal digits, the value within `[-2^63, 2^63)`. Everything else is an error
(`none`); the fast path for short strings and `ParseInt(s, 10, 0)` agree on this. -/
def Atoi (s : Str) : Option Int :=
  let neg : Bool := s.head? = some 45
  let digits : Str := if s.head? = some 45 ∨ s.head? = some 43 then s.drop 1 else s
  if digits = [] then none
  else
    match digitsValue digits 0 with
    | none => none
    | some v =>
      let n : Int := if neg then -(v : Int) else (v : Int)
      if -(2 : Int) ^ 63 ≤ n ∧ n < (2 : Int) ^ 63 then some n else none

/-- The last path element, reversed: the bytes after the last `/`. -/
def lastElementRev (path : Str) : Str := path.reverse.takeWhile (fun b => b ≠ 47)

/-- `filepath.Base` on a Unix path: the last element, trailing slashes removed first;
`.` for the empty path and `/` for a path of slashes only. -/
def Base (path : Str) : Str :=
  if path = [] then [46]
  else
    let stripped := (path.reverse.dropWhile (fun b => b = 47)).reverse
    let last := (lastElementRev stripped).reverse
    if last = [] then [47] else last

/-- `filepath.Ext` on a Unix path: the suffix of the last element that starts at its
last dot, empty when it has none. -/
def Ext (path : Str) : Str :=
  let last := lastElementRev path
  if (46 : Byte) ∈ last then (last.takeWhile (fun b => b ≠ 46) ++ [46]).reverse else []

/-- `strings.TrimSuffix`. -/
def TrimSuffix (s suffix : Str) : Str :=
  if suffix.isSuffixOf s then s.take (s.length - suffix.length) else s

/-! ## The file system -/

/-- What `os.Stat` answers for a path: an error for which `os.IsNotExist` holds, any
other error (the returned `FileInfo` is nil then), or a `FileInfo` of which the
code reads `IsDir()` only. -/
inductive StatResult where
  | notExist
  | failed
  | info (isDir : Bool)
deriving DecidableEq, Repr

/-- The environment of a run: the content of a file that can be opened and read to
its end (`readFile`, `none` when `os.Open` or a read fails: what `ioutil.ReadFile`
and `os.Open` with `ioutil.ReadAll` give); for a file that `os.Open` opens but whose
reading ends in an error other than end of file, such as a directory, the bytes read
before the error (`readPartial`, consulted only where `readFile` is `none`); the
result of `filepath.Abs` (`none` on error); the answer of `os.Stat`; and for a Lua
source text the line numbers `n.Line()` of the nodes that `ast.Walk` hands to the
visitor over the statements that `ast.Parse` returns, in visiting order (`none` for a
nil node; the whole is `none` when `ast.Parse` reports an error). -/
structure World where
  readFile : Str → Option Str
  readPartial : Str → Option Str
  abs : Str → Option Str
  stat : Str → StatResult
  walk : Str → Option (List (Option Int))

/-- Lines 239-245. `none` is the run-time panic of calling `IsDir` on the nil
`FileInfo` that `os.Stat` returns with an error other than not-exist. -/
def fileExists (w : World) (filename : Str) : Option Bool :=
  match w.stat filename with
  | .notExist => some false
  | .failed => none
  | .info isDir => some (!isDir)

/-! ## `parse` -/

/-- What lines 89-114 of `parse` decide for a tag: `continue` (`skip`), `return nil,
false` (`fail`), a run-time panic, or the resolved path and the line number. -/
inductive Located where
  | skip
  | fail
  | panic
  | found (path : Str) (line : Int)
deriving DecidableEq, Repr

/-- Lines 89-114 of `parse`. -/
def locate (w : World) (root str : Str) : Located :=
  let str := TrimLeft str 64
  if Count str 58 ≠ 1 then .skip
  else
    let params := Split str 58
    if params.length < 2 then .fail
    else
      let filename := params.getD 0 []
      match Atoi (params.getD 1 []) with
      | none => .fail
      | some line =>
        match w.abs (root ++ [47] ++ filename) with
        | none => .fail
        | some path =>
          match fileExists w path with
          | none => .panic
          | some false => .fail
          | some true => .found path line

/-- The statement `m[k] += c` on a `map[int]uint64`. -/
def incr : List (Int × Nat) → Int → Nat → List (Int × Nat)
  | [], k, c => [(k, c % 2 ^ 64)]
  | (k1, v) :: m, k, c =>
    if k1 = k then (k1, (v + c) % 2 ^ 64) :: m else (k1, v) :: incr m k c

/-- Lines 119-126: the first entry with the given path gets `line[line] += count`;
`none` when `find` stays false. -/
def addCount : List FileData → Str → Int → Nat → Option (List FileData)
  | [], _, _, _ => none
  | f :: fs, path, line, count =>
    if f.path = path then some ({ f with line := incr f.line line count } :: fs)
    else (addCount fs path line count).map (fun fs1 => f :: fs1)

/-- Lines 116-132: update the entry of `path`, or append a new one. -/
def merge (filedata : List FileData) (path : Str) (line : Int) (count : Nat) :
    List FileData :=
  let file := Base path
  let file := TrimSuffix file (Ext file)
  match addCount filedata path line count with
  | some fd => fd
  | none => filedata ++ [{ file := file, path := path, line := [(line, count)] }]

/-- How a run of `parse` ends: `return filedata, true` after printing
`total points = n, files = len(filedata)`; `return nil, false`; or a panic. -/
inductive Outcome where
  | ok (n : Nat) (filedata : List FileData)
  | fail
  | panic
deriving DecidableEq, Repr

/-- Lines 89-134 applied to the decoded records in order, from the counter `n` and the
entries `filedata`. -/
def runRecords (w : World) (root : Str) : List (Str × Nat) → Nat → List FileData → Outcome
  | [], n, filedata => .ok n filedata
  | (str, count) :: rs, n, filedata =>
    match locate w root str with
    | .skip => runRecords w root rs n filedata
    | .fail => .fail
    | .panic => .panic
    | .found path line => runRecords w root rs (n + 1) (merge filedata path line count)

/-- The loop of `parse` (lines 67-135) from offset `i`, counter `n` and entries
`filedata`, followed by lines 137-139. -/
def parseLoop (w : World) (root data : Str) : Nat → Nat → Nat → List FileData → Option Outcome
  | 0, _, _, _ => none
  | fuel + 1, i, n, filedata =>
    match readRecord data i with
    | none => some (.ok n filedata)
    | some (str, count, j) =>
      match locate w root str with
      | .skip => parseLoop w root data fuel j n filedata
      | .fail => some .fail
      | .panic => some .panic
      | .found path line =>
        parseLoop w root data fuel j (n + 1) (merge filedata path line count)

/-- Lines 64-139 of `parse`, on the content of the profile file. -/
def parseData (w : World) (root data : Str) : Option Outcome :=
  parseLoop w root data (data.length + 1) 0 0 []

/-- The function `parse` (lines 56-140). -/
def parse (w : World) (filename root : Str) : Option Outcome :=
  match w.readFile filename with
  | none => some .fail
  | some data => parseData w root data

/-- The value of `m[k]` with its presence flag. -/
def lookup (m : List (Int × Nat)) (k : Int) : Option Nat :=
  match m with
  | [] => none
  | (k1, v) :: m => if k1 = k then some v else lookup m k

/-- The entry for a path in the list that `parse` returns. -/
def entry (filedata : List FileData) (path : Str) : Option FileData :=
  filedata.find? (fun f => f.path = path)

/-- The value the Go expression `f.line[l]` has for the entry of `path` (0 for a
missing key), 0 when there is no entry for `path`. -/
def lineCount (filedata : List FileData) (path : Str) (l : Int) : Nat :=
  match entry filedata path with
  | none => 0
  | some f => (lookup f.line l).getD 0

/-- A tag that lines 89-114 accept: after the leading `@` are stripped it has exactly
one colon, `strconv.Atoi` reads the part after the colon as `l`, `filepath.Abs` of
`root + "/" + ` the part before the colon is `p`, and `os.Stat` finds `p` and it is
not a directory. -/
def ResolvesTo (w : World) (root tag p : Str) (l : Int) : Prop :=
  Count (TrimLeft tag 64) 58 = 1
    ∧ Atoi ((Split (TrimLeft tag 64) 58).getD 1 []) = some l
    ∧ w.abs (root ++ [47] ++ (Split (TrimLeft tag 64) 58).getD 0 []) = some p
    ∧ w.stat p = .info false

instance (w : World) (root tag p : Str) (l : Int) : Decidable (ResolvesTo w root tag p l) := by
  unfold ResolvesTo; exact inferInstance

/-- The sum of the counts of the records that resolve to path `p` and line `l`. -/
def hits (w : World) (root : Str) (rs : List (Str × Nat)) (p : Str) (l : Int) : Nat :=
  ((rs.filter (fun r => decide (ResolvesTo w root r.1 p l))).map Prod.snd).sum

/-- A tag with one colon that lines 93-114 reject without a panic: `strconv.Atoi`
rejects the line segment, or `filepath.Abs` fails, or `os.Stat` reports that the
resolved path does not exist or is a directory. -/
def FatalTag (w : World) (root tag : Str) : Prop :=
  Count (TrimLeft tag 64) 58 = 1
    ∧ (Atoi ((Split (TrimLeft tag 64) 58).getD 1 []) = none
      ∨ w.abs (root ++ [47] ++ (Split (TrimLeft tag 64) 58).getD 0 []) = none
      ∨ ∃ path, w.abs (root ++ [47] ++ (Split (TrimLeft tag 64) 58).getD 0 []) = some path
          ∧ (w.stat path = .notExist ∨ w.stat path = .info true))

/-- The paths of the entries, in order. -/
def paths (filedata : List FileData) : List Str := filedata.map FileData.path

/-! ## `readfile` and `calc` -/

/-- Lines 156-162 over the text of a file: `ReadString` cuts after every newline, and
the rest after the last newline (empty or not) is appended when the end of file is
reached. -/
def readLines : Str → List Str
  | [] => [[]]
  | b :: bs =>
    if b = 10 then [b] :: readLines bs
    else
      match readLines bs with
      | [] => [[b]]
      | l :: ls => (b :: l) :: ls

/-- The function `readfile` (lines 142-165). Only a failing `os.Open` gives `false`;
a read error ends the loop of lines 156-162 like the end of the file does, after the
bytes read so far were appended. -/
def readfile (w : World) (filename : Str) : List Str × Bool :=
  match w.readFile filename with
  | some text => (readLines text, true)
  | none =>
    match w.readPartial filename with
    | some text => (readLines text, true)
    | none => ([], false)

/-- The function `parseLua` (lines 247-269) followed by the walk of lines 196-198: the
nodes handed to the visitor; `none` when `os.Open`, `ioutil.ReadAll` or `ast.Parse`
fails. -/
def parseLua (w : World) (filename : Str) : Option (List (Option Int)) :=
  match w.readFile filename with
  | none => none
  | some source => w.walk source

/-- The statement `validline[k]++` on a `map[int]int` (the values are never read). -/
def bump : List (Int × Nat) → Int → List (Int × Nat)
  | [], k => [(k, 1)]
  | (k1, v) :: m, k => if k1 = k then (k1, v + 1) :: m else (k1, v) :: bump m k

/-- Lines 190-198: the map `validline` after the visitor saw the given nodes. -/
def validline (nodes : List (Option Int)) : List (Int × Nat) :=
  nodes.foldl (fun m n => match n with
    | none => m
    | some l => bump m l) []

/-- The presence flag of `_, ok := m[k]`. -/
def hasKey (m : List (Int × Nat)) (k : Int) : Bool := (lookup m k).isSome

/-- Lines 201-206: the largest recorded count, 0 for an empty map. -/
def maxpre (line : List (Int × Nat)) : Nat :=
  line.foldl (fun m kv => if kv.2 > m then kv.2 else m) 0

/-- Lines 207-211: the loop `for maxpre > 0 { maxpre /= 10; pre++ }`. -/
def padLoop : Nat → Nat → Nat → Option Nat
  | 0, _, _ => none
  | fuel + 1, maxpre, pre =>
    if maxpre > 0 then padLoop fuel (maxpre / 10) (pre + 1) else some pre

/-- Lines 201-211: the padding width `pre` of the listing. -/
def padWidth (f : FileData) : Option Nat := padLoop (maxpre f.line + 1) (maxpre f.line) 0

/-- Lines 213-221: per source line, the recorded count if the line number is a key of
`f.line`, and the text without its trailing newlines. -/
def listing (f : FileData) (filecontent : List Str) : List (Option Nat × Str) :=
  filecontent.enum.map
    (fun (x : Nat × Str) => (lookup f.line ((x.1 : Int) + 1), TrimRight x.2 10))

/-- Lines 225-234: the number of positions `index` of `filecontent` with `index+1` a
key of both `f.line` and `validline`. -/
def countValid (line validline : List (Int × Nat)) (len : Nat) : Nat :=
  (List.range len).foldl (fun (valid index : Nat) =>
    if hasKey line ((index : Int) + 1) then
      if hasKey validline ((index : Int) + 1) then valid + 1 else valid
    else valid) 0

/-- Lines 224-236: the numbers of the summary line, percentage, `valid` and
`len(validline)`; `none` is the integer-divide-by-zero panic. `valid` is at most the
number of lines of the file, so `valid*100` stays below `2^63`. -/
def calcTotal (f : FileData) (filecontent : List Str) (validline : List (Int × Nat)) :
    Option (Nat × Nat × Nat) :=
  let valid := countValid f.line validline filecontent.length
  if validline.length = 0 then none
  else some (valid * 100 / validline.length, valid, validline.length)

/-- What `calc` prints after the header line: nothing when `readfile` or `parseLua`
fails; else the listing (with its padding width) if `showcode`, then the summary
numbers if `showtotal`, or a panic in their place. -/
inductive CalcResult where
  | aborted
  | printed (listing : Option (Nat × List (Option Nat × Str))) (total : Option (Nat × Nat × Nat))
  | panic (listing : Option (Nat × List (Option Nat × Str)))
deriving DecidableEq, Repr

/-- The function `calc` (lines 176-237), named `calcReport` because `calc` is a
keyword; `none` only if the padding loop ran out of fuel. -/
def calcReport (w : World) (f : FileData) (showcode showtotal _showfunc : Bool) : Option CalcResult :=
  match readfile w f.path with
  | (_, false) => some .aborted
  | (filecontent, true) =>
    match parseLua w f.path with
    | none => some .aborted
    | some nodes =>
      let validline := validline nodes
      let shown : Option (Option (Nat × List (Option Nat × Str))) :=
        if showcode then (padWidth f).map (fun pre => some (pre, listing f filecontent))
        else some none
      match shown with
      | none => none
      | some listing =>
        if showtotal then
          match calcTotal f filecontent validline with
          | none => some (.panic listing)
          | some total => some (.printed listing (some total))
        else some (.printed listing none)

/-- The statement line set: the line numbers of the non-nil nodes. -/
def statementLines (nodes : List (Option Int)) : Finset Int := (nodes.filterMap id).toFinset

/-- The key set of a map. -/
def keys (m : List (Int × Nat)) : Finset Int := (m.map Prod.fst).toFinset

/-! ## Notions used to state the claims on the point and file counts -/

/-- Whether line `l` is a key of the map of the entry of path `p`. -/
def present (filedata : List FileData) (p : Str) (l : Int) : Bool :=
  match entry filedata p with
  | none => false
  | some f => hasKey f.line l

/-- The path that lines 89-114 resolve a tag to, if they get that far. -/
def resolvedPath (w : World) (root tag : Str) : Option Str :=
  match locate w root tag with
  | .found path _ => some path
  | _ => none

/-- The distinct canonical paths among the records. -/
def resolvedPaths (w : World) (root : Str) (rs : List (Str × Nat)) : Finset Str :=
  (rs.filterMap (fun r => resolvedPath w root r.1)).toFinset

/-- The number of records whose tag, leading `@` stripped, has exactly one colon. -/
def oneColonCount (rs : List (Str × Nat)) : Nat :=
  rs.countP (fun r => decide (Count (TrimLeft r.1 64) 58 = 1))

/-! ## The decode loop as the specification words it -/

/-- One pass of the decoder with the three documented stop conditions only: fewer
than 4 bytes remain for the length prefix, the declared tag length exceeds the
remaining bytes, fewer than 8 bytes remain for the count. It has no counterpart of
the check `i >= len(data)` of line 79. -/
def readRecordSpec (data : Str) (i : Nat) : Option (Str × Nat × Nat) :=
  if data.length - i < 4 then none
  else
    let strlen := littleEndian (slice data i (i + 4))
    if strlen > data.length - (i + 4) then none
    else if data.length - (i + 4 + strlen) < 8 then none
    else
      some (slice data (i + 4) (i + 4 + strlen),
        littleEndian (slice data (i + 4 + strlen) (i + 4 + strlen + 8)), i + 4 + strlen + 8)

/-- The record sequence of a loop that stops on the three documented conditions
only. -/
def decodeLoopSpec (data : Str) : Nat → Nat → Option (List (Str × Nat))
  | 0, _ => none
  | fuel + 1, i =>
    match readRecordSpec data i with
    | none => some []
    | some (str, count, j) =>
      (decodeLoopSpec data fuel j).map (fun rs => (str, count) :: rs)

/-! ## Examples -/

/-- A file system with the regular file `/r/src/a.lua`, the directory `/r/src`, and a
path below a regular file (`/r/src/a.lua/b.lua`) for which `os.Stat` fails with
`ENOTDIR`. The directory can be opened but not read. Relative names, with or without
a leading `./`, are resolved against the working directory `/r`. -/
def sampleWorld : World where
  readFile := fun _ => none
  readPartial := fun p => if p = ascii "/r/src" then some [] else none
  abs := fun p => some (ascii "/r/" ++ (if (ascii "./").isPrefixOf p then p.drop 2 else p))
  stat := fun p =>
    if p = ascii "/r/src/a.lua" then .info false
    else if p = ascii "/r/src" then .info true
    else if p = ascii "/r/src/a.lua/b.lua" then .failed
    else .notExist
  walk := fun _ => none

/-- A file system with the source `/r/b.lua` of three lines whose statements are on
lines 1 and 3 (two nodes on line 3). -/
def luaWorld : World where
  readFile := fun p => if p = ascii "/r/b.lua" then some (ascii "x=1\n\ny=2") else none
  readPartial := fun _ => none
  abs := fun p => some (ascii "/r/" ++ p)
  stat := fun p => if p = ascii "/r/b.lua" then .info false else .notExist
  walk := fun _ => some [some 1, none, some 3, some 3]

/-- A file system with the empty source `/r/empty.lua` and the source `/r/c.lua` that
holds a comment only; neither has a statement. -/
def emptyLuaWorld : World where
  readFile := fun p =>
    if p = ascii "/r/empty.lua" then some []
    else if p = ascii "/r/c.lua" then some (ascii "-- nothing\n")
    else none
  readPartial := fun _ => none
  abs := fun p => some (ascii "/r/" ++ p)
  stat := fun p =>
    if p = ascii "/r/empty.lua" ∨ p = ascii "/r/c.lua" then .info false else .notExist
  walk := fun _ => some []

example : readLines (ascii "x=1\n\ny=2") = [ascii "x=1\n", ascii "\n", ascii "y=2"] := by decide
example : readLines (ascii "x\n") = [ascii "x\n", []] := by decide
example : readfile sampleWorld (ascii "/r/src") = ([[]], true) := by decide
example : readfile sampleWorld (ascii "/r/missing.lua") = ([], false) := by decide
example : calcReport sampleWorld ⟨ascii "src", ascii "/r/src", []⟩ true true true
    = some .aborted := by decide
example : calcReport luaWorld ⟨ascii "b", ascii "/r/b.lua", [(3, 12), (2, 4)]⟩ true true true
    = some (.printed (some (2, [(none, ascii "x=1"), (some 4, []), (some 12, ascii "y=2")]))
        (some (50, 1, 2))) := by decide
example : calcReport luaWorld ⟨ascii "b", ascii "/r/b.lua", []⟩ true true true
    = some (.printed (some (0, [(none, ascii "x=1"), (none, []), (none, ascii "y=2")]))
        (some (0, 0, 2))) := by decide

example : decode (encodeRecords [(ascii "a:1", 5), (ascii "", 7)])
    = some [(ascii "a:1", 5), (ascii "", 7)] := by decide

example : parseData sampleWorld (ascii ".")
    (encodeRecords [(ascii "@src/a.lua:3", 5), (ascii "x", 1), (ascii "src/a.lua:3", 2)])
    = some (.ok 2 [⟨ascii "a", ascii "/r/src/a.lua", [(3, 7)]⟩]) := by decide

example : parseData sampleWorld (ascii ".") (encodeRecords [(ascii "src/a.lua:-3", 5)])
    = some (.ok 1 [⟨ascii "a", ascii "/r/src/a.lua", [(-3, 5)]⟩]) := by decide

example : parseData sampleWorld (ascii ".") (encodeRecords [(ascii "src/a.lua/b.lua:3", 5)])
    = some .panic := by decide

example : Atoi (ascii "+12") = some 12 := by decide
example : Atoi (ascii "") = none := by decide
example : Atoi (ascii "-") = none := by decide
example : Atoi (ascii "9223372036854775808") = none := by decide
example : Atoi (ascii "-9223372036854775808") = some (-9223372036854775808) := by decide
example : Base (ascii "/r/src/a.lua") = ascii "a.lua" := by decide
example : Ext (ascii "a.b.lua") = ascii ".lua" := by decide
example : Ext (ascii "a.b/lua") = ascii "" := by decide

/-! ## The record layout read back -/

theorem putLittleEndian_length (k n : Nat) : (putLittleEndian k n).length = k := by
  induction k generalizing n with
  | zero => rfl
  | succ k ih => simp [putLittleEndian, ih]

theorem littleEndian_put (k n : Nat) : littleEndian (putLittleEndian k n) = n % 256 ^ k := by
  induction k generalizing n with
  | zero => simp [putLittleEndian, littleEndian, Nat.mod_one]
  | succ k ih =>
    have h : (Fin.ofNat (n % 256) : Byte).val = n % 256 := by
      simp [Fin.ofNat]
    simp only [putLittleEndian, littleEndian, ih, h]
    rw [pow_succ, mul_comm (256 ^ k) 256, Nat.mod_mul]

theorem slice_append_left (pre data : Str) (a b : Nat) :
    slice (pre ++ data) (pre.length + a) (pre.length + b) = slice data a b := by
  unfold slice
  rw [List.drop_append]
  congr 1
  omega

theorem slice_zero_append (x rest : Str) : slice (x ++ rest) 0 x.length = x := by
  simp [slice]

theorem slice_zero_append_of_eq (x rest : Str) (k : Nat) (h : k = x.length) :
    slice (x ++ rest) 0 k = x := by
  subst h; exact slice_zero_append x rest

theorem encodeRecord_length (r : Str × Nat) : (encodeRecord r).length = 12 + r.1.length := by
  simp [encodeRecord, putLittleEndian_length]; omega

theorem encodeRecords_append (xs ys : List (Str × Nat)) :
    encodeRecords (xs ++ ys) = encodeRecords xs ++ encodeRecords ys := by
  induction xs with
  | nil => rfl
  | cons x xs ih => simp [encodeRecords, ih]

theorem length_le_encodeRecords (rs : List (Str × Nat)) :
    rs.length ≤ (encodeRecords rs).length := by
  induction rs with
  | nil => simp
  | cons r rs ih =>
    simp only [encodeRecords, List.length_cons, List.length_append, encodeRecord_length]
    omega

/-- Reading at an offset behind a prefix is reading in the rest of the buffer. -/
theorem readRecord_append_left (pre data : Str) (i : Nat) :
    readRecord (pre ++ data) (pre.length + i)
      = (readRecord data i).map (fun x => (x.1, x.2.1, pre.length + x.2.2)) := by
  have e4 : pre.length + i + 4 = pre.length + (i + 4) := by omega
  unfold readRecord
  simp only [List.length_append, e4, slice_append_left]
  by_cases h1 : i + 4 > data.length
  · have h1a : pre.length + (i + 4) > pre.length + data.length := by omega
    simp [h1, h1a]
  · have h1a : ¬ pre.length + (i + 4) > pre.length + data.length := by omega
    simp only [h1, h1a, if_false]
    generalize littleEndian (slice data i (i + 4)) = strlen
    have e5 : pre.length + (i + 4) + strlen = pre.length + (i + 4 + strlen) := by omega
    simp only [e5, slice_append_left]
    by_cases h2 : i + 4 + strlen > data.length
    · have h2a : pre.length + (i + 4 + strlen) > pre.length + data.length := by omega
      simp [h2, h2a]
    · have h2a : ¬ pre.length + (i + 4 + strlen) > pre.length + data.length := by omega
      simp only [h2, h2a, if_false]
      by_cases h3 : i + 4 + strlen ≥ data.length
      · have h3a : pre.length + (i + 4 + strlen) ≥ pre.length + data.length := by omega
        simp [h3, h3a]
      · have h3a : ¬ pre.length + (i + 4 + strlen) ≥ pre.length + data.length := by omega
        simp only [h3, h3a, if_false]
        have e6 : pre.length + (i + 4 + strlen) + 8 = pre.length + (i + 4 + strlen + 8) := by
          omega
        simp only [e6, slice_append_left]
        by_cases h4 : i + 4 + strlen + 8 > data.length
        · have h4a : pre.length + (i + 4 + strlen + 8) > pre.length + data.length := by omega
          simp [h4, h4a]
        · have h4a : ¬ pre.length + (i + 4 + strlen + 8) > pre.length + data.length := by
            omega
          simp [h4, h4a]

/-- What a successful pass of the decode part consumed: the offset moves by the
4-byte prefix, the declared tag length and the 8-byte count, and stays inside the
buffer. -/
theorem readRecord_some {data : Str} {i : Nat} {str : Str} {count j : Nat}
    (h : readRecord data i = some (str, count, j)) :
    j = i + 4 + littleEndian (slice data i (i + 4)) + 8 ∧ j ≤ data.length
      ∧ str = slice data (i + 4) (i + 4 + littleEndian (slice data i (i + 4)))
      ∧ count = littleEndian (slice data (j - 8) j) := by
  unfold readRecord at h
  split at h
  · simp at h
  · simp only at h
    split at h
    · simp at h
    · split at h
      · simp at h
      · split at h
        · simp at h
        · simp only [Option.some.injEq, Prod.mk.injEq] at h
          obtain ⟨h1, h2, h3⟩ := h
          subst h1 h2 h3
          refine ⟨rfl, by omega, rfl, ?_⟩
          simp

/-- A complete record at the head of a buffer is read back. -/
theorem readRecord_encodeRecord (r : Str × Nat) (rest : Str) (hr : Complete r) :
    readRecord (encodeRecord r ++ rest) 0 = some (r.1, r.2, (encodeRecord r).length) := by
  obtain ⟨tag, count⟩ := r
  obtain ⟨hl, hc⟩ := hr
  simp only at hl hc
  have hlen : (encodeRecord (tag, count) ++ rest).length = 12 + tag.length + rest.length := by
    simp [encodeRecord_length]
  have s1 : slice (encodeRecord (tag, count) ++ rest) 0 (0 + 4) = putLittleEndian 4 tag.length := by
    unfold encodeRecord
    simp only [List.append_assoc]
    exact slice_zero_append_of_eq _ _ _ (by simp [putLittleEndian_length])
  have v1 : littleEndian (putLittleEndian 4 tag.length) = tag.length := by
    rw [littleEndian_put]; exact Nat.mod_eq_of_lt (by norm_num; omega)
  have s2 : slice (encodeRecord (tag, count) ++ rest) (0 + 4) (0 + 4 + tag.length) = tag := by
    unfold encodeRecord
    simp only [List.append_assoc]
    have := slice_append_left (putLittleEndian 4 tag.length)
      (tag ++ (putLittleEndian 8 count ++ rest)) 0 tag.length
    simp only [putLittleEndian_length] at this
    simp only [Nat.zero_add, Nat.add_zero] at this ⊢
    rw [this]
    exact slice_zero_append tag _
  have s3 : slice (encodeRecord (tag, count) ++ rest) (0 + 4 + tag.length)
      (0 + 4 + tag.length + 8) = putLittleEndian 8 count := by
    unfold encodeRecord
    have := slice_append_left (putLittleEndian 4 tag.length ++ tag)
      (putLittleEndian 8 count ++ rest) 0 8
    simp only [List.length_append, putLittleEndian_length] at this
    simp only [Nat.zero_add, Nat.add_zero, List.append_assoc] at this ⊢
    rw [this]
    exact slice_zero_append_of_eq _ _ _ (by simp [putLittleEndian_length])
  have v3 : littleEndian (putLittleEndian 8 count) = count := by
    rw [littleEndian_put]; exact Nat.mod_eq_of_lt (by norm_num; omega)
  unfold readRecord
  simp only [s1, v1, s2, s3, v3, hlen, encodeRecord_length]
  have c1 : ¬ (0 + 4 > 12 + tag.length + rest.length) := by omega
  have c2 : ¬ (0 + 4 + tag.length > 12 + tag.length + rest.length) := by omega
  have c3 : ¬ (0 + 4 + tag.length ≥ 12 + tag.length + rest.length) := by omega
  have c4 : ¬ (0 + 4 + tag.length + 8 > 12 + tag.length + rest.length) := by omega
  simp only [c1, c2, c3, c4, if_false]
  simp only [Option.some.injEq, Prod.mk.injEq, true_and]
  omega

/-! ## The loop over a buffer of records -/

theorem decodeLoop_append_left (pre data : Str) (fuel i : Nat) :
    decodeLoop (pre ++ data) fuel (pre.length + i) = decodeLoop data fuel i := by
  induction fuel generalizing i with
  | zero => rfl
  | succ fuel ih =>
    simp only [decodeLoop, readRecord_append_left]
    cases h : readRecord data i with
    | none => rfl
    | some x =>
      obtain ⟨str, count, j⟩ := x
      simp only [Option.map_some']
      rw [ih]

/-- The loop of `parse` is the per-record part run over the records that the decode
part reads. -/
theorem parseLoop_eq_runRecords (w : World) (root data : Str) (fuel i n : Nat)
    (filedata : List FileData) (rs : List (Str × Nat))
    (h : decodeLoop data fuel i = some rs) :
    parseLoop w root data fuel i n filedata = some (runRecords w root rs n filedata) := by
  induction fuel generalizing i n filedata rs with
  | zero => simp [decodeLoop] at h
  | succ fuel ih =>
    simp only [decodeLoop] at h
    simp only [parseLoop]
    cases hr : readRecord data i with
    | none =>
      rw [hr] at h
      simp only [Option.some.injEq] at h
      subst h
      rfl
    | some x =>
      obtain ⟨str, count, j⟩ := x
      rw [hr] at h
      simp only at h ⊢
      cases hd : decodeLoop data fuel j with
      | none => rw [hd] at h; simp at h
      | some rs1 =>
        rw [hd] at h
        simp only [Option.map_some', Option.some.injEq] at h
        subst h
        simp only [runRecords]
        cases locate w root str with
        | skip => exact ih j n filedata rs1 hd
        | fail => rfl
        | panic => rfl
        | found path line => exact ih j (n + 1) _ rs1 hd

/-- Complete records followed by bytes at which the decode part breaks are read back
in order, the trailing bytes giving nothing. -/
theorem decodeLoop_encodeRecords (rs : List (Str × Nat)) (tail : Str) (fuel : Nat)
    (hrs : ∀ r ∈ rs, Complete r) (htail : readRecord tail 0 = none)
    (hfuel : rs.length < fuel) :
    decodeLoop (encodeRecords rs ++ tail) fuel 0 = some rs := by
  induction rs generalizing fuel with
  | nil =>
    obtain ⟨fuel, rfl⟩ : ∃ k, fuel = k + 1 := ⟨fuel - 1, by simp at hfuel; omega⟩
    simp [decodeLoop, encodeRecords, htail]
  | cons r rs ih =>
    obtain ⟨fuel, rfl⟩ : ∃ k, fuel = k + 1 := ⟨fuel - 1, by simp at hfuel; omega⟩
    have hr : Complete r := hrs r (List.mem_cons_self _ _)
    simp only [decodeLoop, encodeRecords, List.append_assoc]
    rw [readRecord_encodeRecord r _ hr]
    simp only
    have := decodeLoop_append_left (encodeRecord r) (encodeRecords rs ++ tail) fuel 0
    simp only [Nat.add_zero] at this
    rw [this, ih fuel (fun x hx => hrs x (List.mem_cons_of_mem _ hx))
      (by simp at hfuel; omega)]
    rfl

theorem readRecord_nil : readRecord [] 0 = none := by
  simp [readRecord]

/-- The decode part breaks on fewer than 12 bytes. -/
theorem readRecord_short (t : Str) (h : t.length < 12) : readRecord t 0 = none := by
  cases hr : readRecord t 0 with
  | none => rfl
  | some x =>
    obtain ⟨str, count, j⟩ := x
    have := readRecord_some hr
    omega

theorem decode_encodeRecords_append (rs : List (Str × Nat)) (tail : Str)
    (hrs : ∀ r ∈ rs, Complete r) (htail : readRecord tail 0 = none) :
    decode (encodeRecords rs ++ tail) = some rs := by
  unfold decode
  apply decodeLoop_encodeRecords rs tail _ hrs htail
  have := length_le_encodeRecords rs
  simp only [List.length_append]
  omega

theorem decode_encodeRecords (rs : List (Str × Nat)) (hrs : ∀ r ∈ rs, Complete r) :
    decode (encodeRecords rs) = some rs := by
  have := decode_encodeRecords_append rs [] hrs readRecord_nil
  simpa using this

theorem parseData_of_decode (w : World) (root data : Str) (rs : List (Str × Nat))
    (h : decode data = some rs) :
    parseData w root data = some (runRecords w root rs 0 []) :=
  parseLoop_eq_runRecords w root data _ 0 0 [] rs h

theorem parseData_encodeRecords (w : World) (root : Str) (rs : List (Str × Nat))
    (hrs : ∀ r ∈ rs, Complete r) :
    parseData w root (encodeRecords rs) = some (runRecords w root rs 0 []) :=
  parseData_of_decode w root _ rs (decode_encodeRecords rs hrs)

/-! ## Termination of the loop -/

theorem decodeLoop_terminates (data : Str) (fuel i : Nat) (h : data.length < i + fuel)
    (hpos : 0 < fuel) : ∃ rs, decodeLoop data fuel i = some rs := by
  induction fuel generalizing i with
  | zero => omega
  | succ fuel ih =>
    simp only [decodeLoop]
    cases hr : readRecord data i with
    | none => exact ⟨[], rfl⟩
    | some x =>
      obtain ⟨str, count, j⟩ := x
      have hj := readRecord_some hr
      obtain ⟨rs, hrs⟩ := ih j (by omega) (by omega)
      exact ⟨(str, count) :: rs, by simp [hrs]⟩

theorem decode_total (data : Str) : ∃ rs, decode data = some rs :=
  decodeLoop_terminates data _ 0 (by omega) (by omega)

/-- Every count that the decode part reads is a `uint64`. -/
theorem littleEndian_lt (bs : Str) : littleEndian bs < 256 ^ bs.length := by
  induction bs with
  | nil => simp [littleEndian]
  | cons b bs ih =>
    simp only [littleEndian, List.length_cons, pow_succ]
    have := b.isLt
    omega

/-! ## Tags -/

theorem Split_length (s : Str) (c : Byte) : (Split s c).length = Count s c + 1 := by
  induction s with
  | nil => simp [Split, Count]
  | cons b bs ih =>
    unfold Count at ih ⊢
    by_cases h : b = c
    · subst h
      simp [Split, ih]
    · have hne : (b == c) = false := by simpa using h
      simp only [Split, h, if_false, List.count_cons, hne]
      cases hs : Split bs c with
      | nil => rw [hs] at ih; simp at ih
      | cons q qs => rw [hs] at ih; simpa using ih

theorem TrimLeft_replicate_append (k : Nat) (c : Byte) (s : Str) :
    TrimLeft (List.replicate k c ++ s) c = TrimLeft s c := by
  induction k with
  | zero => rfl
  | succ k ih => simp [List.replicate_succ, TrimLeft, ih]

theorem fileExists_eq_true_iff (w : World) (path : Str) :
    fileExists w path = some true ↔ w.stat path = .info false := by
  unfold fileExists
  cases h : w.stat path with
  | notExist => simp
  | failed => simp
  | info d => cases d <;> simp

/-- Lines 89-114 reach the aggregation exactly for the tags described by
`ResolvesTo`. -/
theorem locate_found_iff (w : World) (root tag p : Str) (l : Int) :
    locate w root tag = .found p l ↔ ResolvesTo w root tag p l := by
  unfold locate ResolvesTo
  simp only
  by_cases hc : Count (TrimLeft tag 64) 58 = 1
  · have hlen : ¬ (Split (TrimLeft tag 64) 58).length < 2 := by
      rw [Split_length, hc]; omega
    simp only [hc, ne_eq, not_true_eq_false, if_false, hlen, true_and]
    cases ha : Atoi ((Split (TrimLeft tag 64) 58).getD 1 []) with
    | none => simp
    | some line =>
      simp only [Option.some.injEq]
      cases hp : w.abs (root ++ [47] ++ (Split (TrimLeft tag 64) 58).getD 0 []) with
      | none => simp
      | some path =>
        simp only [Option.some.injEq]
        cases hf : fileExists w path with
        | none =>
          have : ¬ w.stat path = .info false := by
            rw [← fileExists_eq_true_iff, hf]; simp
          simp only [false_iff, reduceCtorEq]
          rintro ⟨rfl, rfl, h3⟩
          exact this h3
        | some b =>
          cases b with
          | false =>
            have : ¬ w.stat path = .info false := by
              rw [← fileExists_eq_true_iff, hf]; simp
            simp only [false_iff, reduceCtorEq]
            rintro ⟨rfl, rfl, h3⟩
            exact this h3
          | true =>
            have h3 : w.stat path = .info false := (fileExists_eq_true_iff w path).1 hf
            simp only [Located.found.injEq]
            constructor
            · rintro ⟨rfl, rfl⟩
              exact ⟨rfl, rfl, h3⟩
            · rintro ⟨rfl, rfl, _⟩
              exact ⟨rfl, rfl⟩
  · simp [hc]

/-! ## The aggregation -/

theorem lookup_incr (m : List (Int × Nat)) (k l : Int) (c : Nat) :
    lookup (incr m k c) l
      = if k = l then some (((lookup m k).getD 0 + c) % 2 ^ 64) else lookup m l := by
  induction m with
  | nil =>
    by_cases h : k = l <;> simp [incr, lookup, h]
  | cons kv m ih =>
    obtain ⟨k1, v⟩ := kv
    by_cases h1 : k1 = k
    · subst h1
      by_cases h : k1 = l <;> simp [incr, lookup, h]
    · by_cases h : k = l
      · subst h
        simp [incr, lookup, h1, ih]
      · by_cases h2 : k1 = l
        · subst h2
          simp [incr, lookup, h1, h]
        · simp [incr, lookup, h1, h2, h, ih]

theorem entry_cons (f : FileData) (fs : List FileData) (p : Str) :
    entry (f :: fs) p = if f.path = p then some f else entry fs p := by
  unfold entry
  by_cases h : f.path = p <;> simp [List.find?, h]

theorem entry_eq_none_iff (fs : List FileData) (p : Str) :
    entry fs p = none ↔ p ∉ paths fs := by
  induction fs with
  | nil => simp [entry, paths]
  | cons f fs ih =>
    rw [entry_cons]
    by_cases h : f.path = p
    · simp [h, paths]
    · have h1 : ¬ p = f.path := fun e => h e.symm
      simp only [h, if_false, ih, paths, List.map_cons, List.mem_cons, h1, false_or]

theorem entry_append_of_not_mem (fs : List FileData) (g : FileData) (p : Str)
    (h : p ∉ paths fs) : entry (fs ++ [g]) p = if g.path = p then some g else none := by
  induction fs with
  | nil => simp [entry_cons, entry]
  | cons f fs ih =>
    simp only [paths, List.map_cons, List.mem_cons, not_or] at h
    have h1 : ¬ f.path = p := fun e => h.1 e.symm
    simp only [List.cons_append, entry_cons, h1, if_false]
    exact ih h.2

theorem entry_append_of_mem (fs : List FileData) (g : FileData) (p : Str)
    (h : p ∈ paths fs) : entry (fs ++ [g]) p = entry fs p := by
  induction fs with
  | nil => simp [paths] at h
  | cons f fs ih =>
    simp only [List.cons_append, entry_cons]
    by_cases h1 : f.path = p
    · simp [h1]
    · simp only [h1, if_false]
      apply ih
      simp only [paths, List.map_cons, List.mem_cons] at h
      rcases h with h | h
      · exact absurd h.symm h1
      · exact h

theorem addCount_eq_none_iff (fs : List FileData) (path : Str) (l : Int) (c : Nat) :
    addCount fs path l c = none ↔ path ∉ paths fs := by
  induction fs with
  | nil => simp [addCount, paths]
  | cons f fs ih =>
    by_cases h : f.path = path
    · simp [addCount, h, paths]
    · have h1 : ¬ path = f.path := fun e => h e.symm
      simp only [addCount, h, if_false, Option.map_eq_none', ih, paths, List.map_cons,
        List.mem_cons, h1, false_or]

theorem paths_addCount (fs fs1 : List FileData) (path : Str) (l : Int) (c : Nat)
    (h : addCount fs path l c = some fs1) : paths fs1 = paths fs := by
  induction fs generalizing fs1 with
  | nil => simp [addCount] at h
  | cons f fs ih =>
    by_cases hp : f.path = path
    · simp only [addCount, hp, if_true, Option.some.injEq] at h
      subst h
      simp [paths, hp]
    · simp only [addCount, hp, if_false, Option.map_eq_some'] at h
      obtain ⟨fs2, h2, rfl⟩ := h
      simp only [paths, List.map_cons, List.cons.injEq, true_and]
      exact ih fs2 h2

theorem entry_addCount (fs fs1 : List FileData) (path : Str) (l : Int) (c : Nat)
    (h : addCount fs path l c = some fs1) (p : Str) :
    entry fs1 p = if p = path
      then (entry fs p).map (fun f => { f with line := incr f.line l c })
      else entry fs p := by
  induction fs generalizing fs1 with
  | nil => simp [addCount] at h
  | cons f fs ih =>
    by_cases hp : f.path = path
    · simp only [addCount, hp, if_true, Option.some.injEq] at h
      subst h
      by_cases hq : p = path
      · subst hq
        simp [entry_cons, hp]
      · have hq1 : ¬ path = p := fun e => hq e.symm
        have hq2 : ¬ f.path = p := by rw [hp]; exact hq1
        simp [entry_cons, hq, hq1, hq2]
    · simp only [addCount, hp, if_false, Option.map_eq_some'] at h
      obtain ⟨fs2, h2, rfl⟩ := h
      have := ih fs2 h2
      by_cases hq : p = path
      · subst hq
        simp only [entry_cons, hp, if_false, this, if_true]
      · simp only [entry_cons, this, hq, if_false]

/-- Lines 116-132 add `count` to the cell of `path` and `line` and leave every other
cell as it was. -/
theorem lineCount_merge (fs : List FileData) (path : Str) (line : Int) (count : Nat)
    (hcount : count < 2 ^ 64) (p : Str) (l : Int) :
    lineCount (merge fs path line count) p l
      = if p = path ∧ l = line then (lineCount fs p l + count) % 2 ^ 64
        else lineCount fs p l := by
  unfold merge
  simp only
  cases ha : addCount fs path line count with
  | some fs1 =>
    simp only
    unfold lineCount
    rw [entry_addCount fs fs1 path line count ha p]
    by_cases hp : p = path
    · subst hp
      simp only [if_true, true_and]
      cases he : entry fs p with
      | none =>
        have := (entry_eq_none_iff fs p).1 he
        have h2 := (addCount_eq_none_iff fs p line count).2 this
        rw [h2] at ha
        simp at ha
      | some f =>
        simp only [Option.map_some', lookup_incr]
        by_cases hl : l = line
        · subst hl
          simp
        · have hl1 : ¬ line = l := fun e => hl e.symm
          simp [hl, hl1]
    · simp [hp]
  | none =>
    simp only
    have hnot := (addCount_eq_none_iff fs path line count).1 ha
    unfold lineCount
    by_cases hp : p = path
    · subst hp
      rw [entry_append_of_not_mem fs _ p hnot, (entry_eq_none_iff fs p).2 hnot]
      by_cases hl : l = line
      · subst hl
        have := Nat.mod_eq_of_lt hcount
        simp only [Nat.reducePow] at this
        simp [lookup, this]
      · have hl1 : ¬ line = l := fun e => hl e.symm
        simp [lookup, hl, hl1]
    · have hp1 : ¬ path = p := fun e => hp e.symm
      by_cases hm : p ∈ paths fs
      · rw [entry_append_of_mem fs _ p hm]
        simp [hp]
      · rw [entry_append_of_not_mem fs _ p hm, (entry_eq_none_iff fs p).2 hm]
        simp [hp, hp1]

/-- Lines 116-132 keep the paths when `path` already has an entry and append `path`
when it has none. -/
theorem paths_merge (fs : List FileData) (path : Str) (line : Int) (count : Nat) :
    paths (merge fs path line count)
      = if path ∈ paths fs then paths fs else paths fs ++ [path] := by
  unfold merge
  simp only
  cases ha : addCount fs path line count with
  | some fs1 =>
    have hm : path ∈ paths fs := by
      by_contra hn
      rw [(addCount_eq_none_iff fs path line count).2 hn] at ha
      simp at ha
    simp only [hm, if_true]
    exact paths_addCount fs fs1 path line count ha
  | none =>
    have hnot := (addCount_eq_none_iff fs path line count).1 ha
    simp only [hnot, if_false]
    simp [paths]

theorem nodup_paths_merge (fs : List FileData) (path : Str) (line : Int) (count : Nat)
    (h : (paths fs).Nodup) : (paths (merge fs path line count)).Nodup := by
  rw [paths_merge]
  by_cases hm : path ∈ paths fs
  · simpa [hm] using h
  · simp only [hm, if_false]
    rw [List.nodup_append]
    refine ⟨h, List.nodup_singleton _, ?_⟩
    intro a ha hb
    simp only [List.mem_singleton] at hb
    subst hb
    exact hm ha

/-! ## The per-record part over a list of records -/

theorem hits_cons (w : World) (root : Str) (r : Str × Nat) (rs : List (Str × Nat))
    (p : Str) (l : Int) :
    hits w root (r :: rs) p l
      = (if ResolvesTo w root r.1 p l then r.2 else 0) + hits w root rs p l := by
  unfold hits
  by_cases h : ResolvesTo w root r.1 p l <;> simp [List.filter_cons, h]

theorem hits_perm (w : World) (root : Str) (rs rs1 : List (Str × Nat)) (h : rs1.Perm rs)
    (p : Str) (l : Int) : hits w root rs1 p l = hits w root rs p l := by
  unfold hits
  exact ((h.filter _).map _).sum_eq

theorem lineCount_nil (p : Str) (l : Int) : lineCount [] p l = 0 := rfl

/-- Over records that all resolve, the per-record part never returns early, counts
every record, and adds each count to the cell of its path and line. -/
theorem runRecords_resolving (w : World) (root : Str) (rs : List (Str × Nat)) (n : Nat)
    (fds : List FileData)
    (hv : ∀ r ∈ rs, ∃ p l, locate w root r.1 = .found p l)
    (hc : ∀ r ∈ rs, r.2 < 2 ^ 64)
    (hfds : ∀ p l, lineCount fds p l < 2 ^ 64) :
    ∃ fds1, runRecords w root rs n fds = .ok (n + rs.length) fds1
      ∧ ∀ p l, lineCount fds1 p l = (lineCount fds p l + hits w root rs p l) % 2 ^ 64 := by
  induction rs generalizing n fds with
  | nil =>
    refine ⟨fds, rfl, fun p l => ?_⟩
    simp only [hits, List.filter_nil, List.map_nil, List.sum_nil, Nat.add_zero]
    exact (Nat.mod_eq_of_lt (hfds p l)).symm
  | cons r rs ih =>
    obtain ⟨str, count⟩ := r
    obtain ⟨path, line, hloc⟩ := hv (str, count) (List.mem_cons_self _ _)
    have hcount : count < 2 ^ 64 := hc (str, count) (List.mem_cons_self _ _)
    simp only at hloc
    have hm := lineCount_merge fds path line count hcount
    have hbound : ∀ p l, lineCount (merge fds path line count) p l < 2 ^ 64 := by
      intro p l
      rw [hm]
      split
      · exact Nat.mod_lt _ (by norm_num)
      · exact hfds p l
    obtain ⟨fds1, h1, h2⟩ := ih (n + 1) (merge fds path line count)
      (fun x hx => hv x (List.mem_cons_of_mem _ hx))
      (fun x hx => hc x (List.mem_cons_of_mem _ hx)) hbound
    refine ⟨fds1, ?_, fun p l => ?_⟩
    · simp only [runRecords, hloc, h1, List.length_cons]
      congr 1
      omega
    · rw [h2, hm, hits_cons]
      simp only [← locate_found_iff, hloc, Located.found.injEq]
      by_cases hpl : p = path ∧ l = line
      · obtain ⟨rfl, rfl⟩ := hpl
        simp only [and_self, if_true]
        rw [Nat.mod_add_mod, Nat.add_assoc]
      · have hpl1 : ¬ (path = p ∧ line = l) := fun e => hpl ⟨e.1.symm, e.2.symm⟩
        simp only [hpl, hpl1, if_false, Nat.zero_add]

/-- A property of the entries that lines 116-132 preserve holds when the per-record
part ends with `ok`. -/
theorem runRecords_invariant (P : List FileData → Prop) (w : World) (root : Str)
    (hstep : ∀ fds path line count, P fds → P (merge fds path line count))
    (rs : List (Str × Nat)) (n : Nat) (fds : List FileData) (n1 : Nat)
    (fds1 : List FileData) (h0 : P fds) (h : runRecords w root rs n fds = .ok n1 fds1) :
    P fds1 := by
  induction rs generalizing n fds with
  | nil =>
    simp only [runRecords, Outcome.ok.injEq] at h
    rw [← h.2]; exact h0
  | cons r rs ih =>
    obtain ⟨str, count⟩ := r
    simp only [runRecords] at h
    cases hl : locate w root str with
    | skip => rw [hl] at h; exact ih n fds h0 h
    | fail => rw [hl] at h; simp at h
    | panic => rw [hl] at h; simp at h
    | found path line =>
      rw [hl] at h
      exact ih (n + 1) _ (hstep fds path line count h0) h

/-- Replacing one record by another that lines 89-114 treat alike and that has the
same count does not change the run. -/
theorem runRecords_congr_middle (w : World) (root : Str) (pre post : List (Str × Nat))
    (a b : Str × Nat) (hloc : locate w root a.1 = locate w root b.1) (hcount : a.2 = b.2)
    (n : Nat) (fds : List FileData) :
    runRecords w root (pre ++ a :: post) n fds = runRecords w root (pre ++ b :: post) n fds := by
  induction pre generalizing n fds with
  | nil =>
    obtain ⟨s1, c1⟩ := a
    obtain ⟨s2, c2⟩ := b
    simp only at hloc hcount
    subst hcount
    simp only [List.nil_append, runRecords, hloc]
  | cons r pre ih =>
    obtain ⟨str, count⟩ := r
    simp only [List.cons_append, runRecords]
    cases locate w root str with
    | skip => exact ih n fds
    | fail => rfl
    | panic => rfl
    | found path line => exact ih (n + 1) _

/-- A record that lines 89-92 skip can be dropped from the run. -/
theorem runRecords_skip_middle (w : World) (root : Str) (pre post : List (Str × Nat))
    (r : Str × Nat) (hloc : locate w root r.1 = .skip) (n : Nat) (fds : List FileData) :
    runRecords w root (pre ++ r :: post) n fds = runRecords w root (pre ++ post) n fds := by
  induction pre generalizing n fds with
  | nil =>
    obtain ⟨s1, c1⟩ := r
    simp only at hloc
    simp only [List.nil_append, runRecords, hloc]
  | cons q pre ih =>
    obtain ⟨str, count⟩ := q
    simp only [List.cons_append, runRecords]
    cases locate w root str with
    | skip => exact ih n fds
    | fail => rfl
    | panic => rfl
    | found path line => exact ih (n + 1) _

theorem locate_skip_of_count (w : World) (root tag : Str)
    (h : Count (TrimLeft tag 64) 58 ≠ 1) : locate w root tag = .skip := by
  unfold locate
  simp only [h, ne_eq, not_false_eq_true, if_true]

theorem locate_replicate_append (w : World) (root tag : Str) (k : Nat) :
    locate w root (List.replicate k 64 ++ tag) = locate w root tag := by
  unfold locate
  simp only [TrimLeft_replicate_append]

theorem complete_append_cons {pre post : List (Str × Nat)} {r : Str × Nat}
    (hpre : ∀ x ∈ pre, Complete x) (hr : Complete r) (hpost : ∀ x ∈ post, Complete x) :
    ∀ x ∈ pre ++ r :: post, Complete x := by
  intro x hx
  simp only [List.mem_append, List.mem_cons] at hx
  rcases hx with hx | hx | hx
  · exact hpre x hx
  · rw [hx]; exact hr
  · exact hpost x hx

theorem complete_append {pre post : List (Str × Nat)}
    (hpre : ∀ x ∈ pre, Complete x) (hpost : ∀ x ∈ post, Complete x) :
    ∀ x ∈ pre ++ post, Complete x := by
  intro x hx
  simp only [List.mem_append] at hx
  rcases hx with hx | hx
  · exact hpre x hx
  · exact hpost x hx

/-- A proper prefix of the encoding of a complete record makes the decode part
break. -/
theorem readRecord_truncated (r : Str × Nat) (t : Str) (hr : Complete r)
    (hpre : t <+: encodeRecord r) (hne : t ≠ encodeRecord r) : readRecord t 0 = none := by
  cases hread : readRecord t 0 with
  | none => rfl
  | some x =>
    exfalso
    obtain ⟨str, count, j⟩ := x
    obtain ⟨hj, hle, -, -⟩ := readRecord_some hread
    obtain ⟨u, hu⟩ := hpre
    have hlen : t.length < (encodeRecord r).length := by
      have h1 : (encodeRecord r).length = t.length + u.length := by
        rw [← hu, List.length_append]
      cases u with
      | nil => simp at hu; exact absurd hu hne
      | cons b u => simp at h1; omega
    have ht4 : slice t 0 (0 + 4) = putLittleEndian 4 r.1.length := by
      have e1 : slice t 0 (0 + 4) = t.take 4 := by simp [slice]
      have e2 : (encodeRecord r).take 4 = putLittleEndian 4 r.1.length := by
        unfold encodeRecord
        rw [List.append_assoc, List.take_left' (putLittleEndian_length 4 _)]
      rw [e1, ← e2, ← hu, List.take_append_of_le_length (by omega)]
    have hv : littleEndian (putLittleEndian 4 r.1.length) = r.1.length := by
      rw [littleEndian_put]; exact Nat.mod_eq_of_lt (by have := hr.1; norm_num; omega)
    rw [ht4, hv] at hj
    rw [encodeRecord_length] at hlen
    omega

theorem hasKey_incr (m : List (Int × Nat)) (k l : Int) (c : Nat) :
    hasKey (incr m k c) l = (hasKey m l || decide (k = l)) := by
  unfold hasKey
  rw [lookup_incr]
  by_cases h : k = l <;> simp [h]

/-- Lines 116-132 make `line` a key of the entry of `path`, whatever the count, and
change no other key set. -/
theorem present_merge (fs : List FileData) (path : Str) (line : Int) (count : Nat)
    (p : Str) (l : Int) :
    present (merge fs path line count) p l
      = (present fs p l || (decide (p = path) && decide (l = line))) := by
  unfold merge
  simp only
  cases ha : addCount fs path line count with
  | some fs1 =>
    simp only
    unfold present
    rw [entry_addCount fs fs1 path line count ha p]
    by_cases hp : p = path
    · subst hp
      simp only [if_true, decide_True, Bool.true_and]
      cases he : entry fs p with
      | none =>
        have := (entry_eq_none_iff fs p).1 he
        have h2 := (addCount_eq_none_iff fs p line count).2 this
        rw [h2] at ha
        simp at ha
      | some f =>
        simp only [Option.map_some', hasKey_incr]
        by_cases hl : l = line
        · subst hl; simp
        · have hl1 : ¬ line = l := fun e => hl e.symm
          simp [hl, hl1]
    · simp [hp]
  | none =>
    simp only
    have hnot := (addCount_eq_none_iff fs path line count).1 ha
    unfold present
    by_cases hp : p = path
    · subst hp
      rw [entry_append_of_not_mem fs _ p hnot, (entry_eq_none_iff fs p).2 hnot]
      by_cases hl : l = line
      · subst hl; simp [hasKey, lookup]
      · have hl1 : ¬ line = l := fun e => hl e.symm
        simp [hasKey, lookup, hl, hl1]
    · have hp1 : ¬ path = p := fun e => hp e.symm
      by_cases hm : p ∈ paths fs
      · rw [entry_append_of_mem fs _ p hm]
        simp [hp]
      · rw [entry_append_of_not_mem fs _ p hm, (entry_eq_none_iff fs p).2 hm]
        simp [hp, hp1]

/-- When `path` has an entry, lines 116-132 take the branch of the `find` loop. -/
theorem merge_of_mem (fs : List FileData) (path : Str) (line : Int) (count : Nat)
    (hmem : path ∈ paths fs) :
    ∃ fs1, addCount fs path line count = some fs1 ∧ merge fs path line count = fs1 := by
  cases ha : addCount fs path line count with
  | none => exact absurd hmem ((addCount_eq_none_iff fs path line count).1 ha)
  | some fs1 =>
    refine ⟨fs1, rfl, ?_⟩
    unfold merge
    simp only [ha]

/-- The run over the records behind a prefix starts where the run over the prefix
ends, unless that one returned early. -/
theorem runRecords_append (w : World) (root : Str) (pre rest : List (Str × Nat)) (n : Nat)
    (fds : List FileData) :
    runRecords w root (pre ++ rest) n fds
      = match runRecords w root pre n fds with
        | .ok n1 fds1 => runRecords w root rest n1 fds1
        | .fail => .fail
        | .panic => .panic := by
  induction pre generalizing n fds with
  | nil => rfl
  | cons q pre ih =>
    obtain ⟨str, count⟩ := q
    simp only [List.cons_append, runRecords]
    cases locate w root str with
    | skip => exact ih n fds
    | fail => rfl
    | panic => rfl
    | found path line => exact ih (n + 1) _

theorem locate_fail_of_Atoi (w : World) (root tag : Str)
    (hone : Count (TrimLeft tag 64) 58 = 1)
    (hrej : Atoi ((Split (TrimLeft tag 64) 58).getD 1 []) = none) :
    locate w root tag = .fail := by
  unfold locate
  simp only [hone, ne_eq, not_true_eq_false, if_false, hrej]
  split <;> rfl

/-! ## Claims on `parse` -/

/-- C1. For a buffer of complete records that all resolve (valid tag, existing file),
given in any order, `parse` succeeds and the count it holds for a path `p` and a
line `l` is the sum of the counts of the records that resolve to `p` with line `l`,
provided that sum fits in 64 bits. -/
theorem parse_lineCounts_sum (w : World) (root : Str) (rs rs1 : List (Str × Nat))
    (hperm : rs1.Perm rs) (hc : ∀ r ∈ rs, Complete r)
    (hv : ∀ r ∈ rs, ∃ p l, ResolvesTo w root r.1 p l)
    (p : Str) (l : Int) (hfit : hits w root rs p l < 2 ^ 64) :
    ∃ n fds, parseData w root (encodeRecords rs1) = some (.ok n fds)
      ∧ lineCount fds p l = hits w root rs p l := by
  have hc1 : ∀ r ∈ rs1, Complete r := fun r hr => hc r (hperm.mem_iff.1 hr)
  have hv1 : ∀ r ∈ rs1, ∃ p l, locate w root r.1 = .found p l := by
    intro r hr
    obtain ⟨q, k, h⟩ := hv r (hperm.mem_iff.1 hr)
    exact ⟨q, k, (locate_found_iff w root r.1 q k).2 h⟩
  obtain ⟨fds, h1, h2⟩ := runRecords_resolving w root rs1 0 [] hv1
    (fun r hr => (hc1 r hr).2) (fun q k => by rw [lineCount_nil]; norm_num)
  refine ⟨0 + rs1.length, fds, ?_, ?_⟩
  · rw [parseData_encodeRecords w root rs1 hc1, h1]
  · rw [h2, lineCount_nil, Nat.zero_add, hits_perm w root rs rs1 hperm,
      Nat.mod_eq_of_lt hfit]

/-- C2. When `parse` succeeds, no two entries of the returned list have the same
path. A record for a path that already has an entry updates that entry and appends
nothing: the list of paths and the number of entries stay as they are, the entry of
the path is the old one with `line[line] += count` applied to its map, every other
entry is the one it was, the line is a key afterwards, the count of the cell of the
path and line grows by `count` (modulo `2^64`), and every other cell keeps its
count. -/
theorem parse_paths_nodup (w : World) (root data : Str) (n : Nat) (fds : List FileData)
    (h : parseData w root data = some (.ok n fds)) :
    (paths fds).Nodup
      ∧ (∀ path line count, path ∈ paths fds →
          paths (merge fds path line count) = paths fds)
      ∧ ∀ path line count, path ∈ paths fds → count < 2 ^ 64 →
          (merge fds path line count).length = fds.length
            ∧ (∃ f, entry fds path = some f
                ∧ entry (merge fds path line count) path
                    = some { f with line := incr f.line line count })
            ∧ (∀ p, p ≠ path → entry (merge fds path line count) p = entry fds p)
            ∧ present (merge fds path line count) path line = true
            ∧ lineCount (merge fds path line count) path line
                = (lineCount fds path line + count) % 2 ^ 64
            ∧ (∀ p l, ¬ (p = path ∧ l = line) →
                lineCount (merge fds path line count) p l = lineCount fds p l) := by
  refine ⟨?_, ?_, ?_⟩
  · obtain ⟨rs, hrs⟩ := decode_total data
    rw [parseData_of_decode w root data rs hrs] at h
    simp only [Option.some.injEq] at h
    exact runRecords_invariant (fun fs => (paths fs).Nodup) w root
      (fun fs path line count hP => nodup_paths_merge fs path line count hP)
      rs 0 [] n fds (by simp [paths]) h
  · intro path line count hmem
    rw [paths_merge, if_pos hmem]
  · intro path line count hmem hcount
    obtain ⟨fs1, hadd, hmerge⟩ := merge_of_mem fds path line count hmem
    have hentry := entry_addCount fds fs1 path line count hadd
    refine ⟨?_, ?_, ?_, ?_, ?_, ?_⟩
    · have hp := paths_merge fds path line count
      rw [if_pos hmem] at hp
      have := congrArg List.length hp
      simpa [paths] using this
    · cases he : entry fds path with
      | none => exact absurd hmem ((entry_eq_none_iff fds path).1 he)
      | some f =>
        refine ⟨f, rfl, ?_⟩
        rw [hmerge, hentry path, if_pos rfl, he]
        rfl
    · intro p hp
      rw [hmerge, hentry p, if_neg hp]
    · rw [present_merge]
      simp
    · rw [lineCount_merge fds path line count hcount, if_pos ⟨rfl, rfl⟩]
    · intro p l hpl
      rw [lineCount_merge fds path line count hcount, if_neg hpl]

/-- C3. The decode part of the loop of `parse`, run over the concatenated encodings
of complete records, reads exactly those tag and count pairs, each once and in
buffer order; and `parse` is the per-record part applied to them in that order. -/
theorem decode_encodeRecords_exact (rs : List (Str × Nat)) (hrs : ∀ r ∈ rs, Complete r) :
    decode (encodeRecords rs) = some rs
      ∧ ∀ w root, parseData w root (encodeRecords rs) = some (runRecords w root rs 0 []) :=
  ⟨decode_encodeRecords rs hrs, fun w root => parseData_encodeRecords w root rs hrs⟩

/-- C4. One to seven extra bytes of any content after a buffer of complete records
change neither the decoded record sequence nor the result of `parse`, which is the
per-record part run over the records of the buffer. -/
theorem parse_trailing_bytes (rs : List (Str × Nat)) (extra : Str)
    (hrs : ∀ r ∈ rs, Complete r) (h1 : 1 ≤ extra.length) (h7 : extra.length ≤ 7) :
    decode (encodeRecords rs ++ extra) = some rs
      ∧ decode (encodeRecords rs ++ extra) = decode (encodeRecords rs)
      ∧ ∀ w root, parseData w root (encodeRecords rs ++ extra)
            = parseData w root (encodeRecords rs)
          ∧ parseData w root (encodeRecords rs) = some (runRecords w root rs 0 []) := by
  have hd := decode_encodeRecords_append rs extra hrs (readRecord_short extra (by omega))
  refine ⟨hd, by rw [hd, decode_encodeRecords rs hrs], fun w root => ?_⟩
  rw [parseData_of_decode w root _ rs hd, parseData_encodeRecords w root rs hrs]
  exact ⟨rfl, rfl⟩

/-- C5. A proper prefix of the encoding of any one complete record, put after a buffer
of complete records, is dropped: the decode part reads the records of the buffer
only, and `parse` gives the result it gives without the truncated record. -/
theorem parse_truncated_record (rs : List (Str × Nat)) (r : Str × Nat) (t : Str)
    (hrs : ∀ x ∈ rs, Complete x) (hr : Complete r)
    (hpre : t <+: encodeRecord r) (hne : t ≠ encodeRecord r) :
    decode (encodeRecords rs ++ t) = some rs
      ∧ ∀ w root, parseData w root (encodeRecords rs ++ t)
            = parseData w root (encodeRecords rs)
          ∧ parseData w root (encodeRecords rs) = some (runRecords w root rs 0 []) := by
  have hd := decode_encodeRecords_append rs t hrs (readRecord_truncated r t hr hpre hne)
  refine ⟨hd, fun w root => ?_⟩
  rw [parseData_of_decode w root _ rs hd, parseData_encodeRecords w root rs hrs]
  exact ⟨rfl, rfl⟩

/-- C6. A complete record whose tag, leading `@` stripped, has no colon or more than
one, inserted anywhere into a buffer of complete records, is decoded like the others
and does not change the result of `parse`, which is the per-record part run over the
other records. -/
theorem parse_skips_bad_colon_count (w : World) (root : Str) (pre post : List (Str × Nat))
    (r : Str × Nat) (hpre : ∀ x ∈ pre, Complete x) (hpost : ∀ x ∈ post, Complete x)
    (hr : Complete r) (hbad : Count (TrimLeft r.1 64) 58 ≠ 1) :
    decode (encodeRecords (pre ++ r :: post)) = some (pre ++ r :: post)
      ∧ parseData w root (encodeRecords (pre ++ r :: post))
          = parseData w root (encodeRecords (pre ++ post))
      ∧ parseData w root (encodeRecords (pre ++ post))
          = some (runRecords w root (pre ++ post) 0 []) := by
  have hall := complete_append_cons hpre hr hpost
  refine ⟨decode_encodeRecords _ hall, ?_, ?_⟩
  · rw [parseData_encodeRecords w root _ hall,
      parseData_encodeRecords w root _ (complete_append hpre hpost),
      runRecords_skip_middle w root pre post r (locate_skip_of_count w root r.1 hbad)]
  · exact parseData_encodeRecords w root _ (complete_append hpre hpost)

/-- C7. Putting any number of `@` in front of the tag of a record of a buffer of
complete records changes neither what the tag resolves to nor the result of `parse`,
which is the per-record part run over the records with the unprefixed tag. -/
theorem parse_ignores_leading_at (w : World) (root : Str) (pre post : List (Str × Nat))
    (tag : Str) (count k : Nat) (hpre : ∀ x ∈ pre, Complete x)
    (hpost : ∀ x ∈ post, Complete x) (hr : Complete (List.replicate k 64 ++ tag, count)) :
    locate w root (List.replicate k 64 ++ tag) = locate w root tag
      ∧ parseData w root (encodeRecords (pre ++ (List.replicate k 64 ++ tag, count) :: post))
          = parseData w root (encodeRecords (pre ++ (tag, count) :: post))
      ∧ parseData w root (encodeRecords (pre ++ (tag, count) :: post))
          = some (runRecords w root (pre ++ (tag, count) :: post) 0 []) := by
  have hr1 : Complete (tag, count) := by
    refine ⟨?_, hr.2⟩
    have := hr.1
    simp only [List.length_append, List.length_replicate] at this
    simp only
    omega
  refine ⟨locate_replicate_append w root tag k, ?_,
    parseData_encodeRecords w root _ (complete_append_cons hpre hr1 hpost)⟩
  rw [parseData_encodeRecords w root _ (complete_append_cons hpre hr hpost),
    parseData_encodeRecords w root _ (complete_append_cons hpre hr1 hpost)]
  exact congrArg some (runRecords_congr_middle w root pre post
    (List.replicate k 64 ++ tag, count) (tag, count)
    (locate_replicate_append w root tag k) rfl 0 [])

theorem parse_lineCounts_sum_witness :
    ∃ n fds, parseData sampleWorld (ascii ".")
        (encodeRecords [(ascii "src/a.lua:3", 2), (ascii "@src/a.lua:3", 5)]) = some (.ok n fds)
      ∧ lineCount fds (ascii "/r/src/a.lua") 3 = 7 := by
  have h := parse_lineCounts_sum sampleWorld (ascii ".")
    [(ascii "@src/a.lua:3", 5), (ascii "src/a.lua:3", 2)]
    [(ascii "src/a.lua:3", 2), (ascii "@src/a.lua:3", 5)]
    (List.Perm.swap _ _ _) (by decide)
    (by
      intro r hr
      simp only [List.mem_cons, List.mem_singleton, List.not_mem_nil, or_false] at hr
      rcases hr with rfl | rfl
      · exact ⟨ascii "/r/src/a.lua", 3, by decide⟩
      · exact ⟨ascii "/r/src/a.lua", 3, by decide⟩)
    (ascii "/r/src/a.lua") 3 (by decide)
  have e : hits sampleWorld (ascii ".")
      [(ascii "@src/a.lua:3", 5), (ascii "src/a.lua:3", 2)] (ascii "/r/src/a.lua") 3 = 7 := by
    decide
  rw [e] at h
  exact h

theorem parse_paths_nodup_witness :
    (paths [(⟨ascii "a", ascii "/r/src/a.lua", [(3, 7), (4, 1)]⟩ : FileData)]).Nodup
      ∧ entry (merge [(⟨ascii "a", ascii "/r/src/a.lua", [(3, 7), (4, 1)]⟩ : FileData)]
            (ascii "/r/src/a.lua") 4 9) (ascii "/r/src/a.lua")
          = some ⟨ascii "a", ascii "/r/src/a.lua", [(3, 7), (4, 10)]⟩
      ∧ lineCount (merge [(⟨ascii "a", ascii "/r/src/a.lua", [(3, 7), (4, 1)]⟩ : FileData)]
            (ascii "/r/src/a.lua") 4 9) (ascii "/r/src/a.lua") 4
          = (lineCount [(⟨ascii "a", ascii "/r/src/a.lua", [(3, 7), (4, 1)]⟩ : FileData)]
              (ascii "/r/src/a.lua") 4 + 9) % 2 ^ 64
      ∧ lineCount (merge [(⟨ascii "a", ascii "/r/src/a.lua", [(3, 7), (4, 1)]⟩ : FileData)]
            (ascii "/r/src/a.lua") 4 9) (ascii "/r/src/a.lua") 4 = 10
      ∧ (merge [(⟨ascii "a", ascii "/r/src/a.lua", [(3, 7), (4, 1)]⟩ : FileData)]
            (ascii "/r/src/a.lua") 4 9).length = 1 := by
  have h := parse_paths_nodup sampleWorld (ascii ".")
    (encodeRecords [(ascii "@src/a.lua:3", 5), (ascii "src/a.lua:4", 1),
      (ascii "src/a.lua:3", 2)])
    3 [⟨ascii "a", ascii "/r/src/a.lua", [(3, 7), (4, 1)]⟩] (by decide)
  obtain ⟨h1, -, h3⟩ := h
  obtain ⟨hlen, ⟨f, hf, hent⟩, -, -, hcell, -⟩ :=
    h3 (ascii "/r/src/a.lua") 4 9 (by decide) (by decide)
  have hf1 : f = ⟨ascii "a", ascii "/r/src/a.lua", [(3, 7), (4, 1)]⟩ := by
    have e : entry [(⟨ascii "a", ascii "/r/src/a.lua", [(3, 7), (4, 1)]⟩ : FileData)]
        (ascii "/r/src/a.lua") = some ⟨ascii "a", ascii "/r/src/a.lua", [(3, 7), (4, 1)]⟩ := by
      decide
    rw [e] at hf
    exact (Option.some.inj hf).symm
  subst hf1
  refine ⟨h1, ?_, hcell, ?_, hlen⟩
  · rw [hent]; decide
  · rw [hcell]; decide

theorem decode_encodeRecords_exact_witness :
    decode (encodeRecords [(ascii "a.lua:1", 5), (ascii "", 0), (ascii "a.lua:1", 5)])
      = some [(ascii "a.lua:1", 5), (ascii "", 0), (ascii "a.lua:1", 5)] :=
  (decode_encodeRecords_exact [(ascii "a.lua:1", 5), (ascii "", 0), (ascii "a.lua:1", 5)]
    (by decide)).1

theorem parse_trailing_bytes_witness :
    decode (encodeRecords [(ascii "src/a.lua:3", 2)] ++ [0, 0, 0, 0, 7])
      = decode (encodeRecords [(ascii "src/a.lua:3", 2)]) :=
  (parse_trailing_bytes [(ascii "src/a.lua:3", 2)] [0, 0, 0, 0, 7] (by decide) (by decide)
    (by decide)).2.1

theorem parse_truncated_record_witness :
    parseData sampleWorld (ascii ".")
        (encodeRecords [(ascii "src/a.lua:3", 2)]
          ++ (encodeRecord (ascii "src/a.lua:x", 9)).take 18)
      = parseData sampleWorld (ascii ".") (encodeRecords [(ascii "src/a.lua:3", 2)]) :=
  (parse_truncated_record [(ascii "src/a.lua:3", 2)] (ascii "src/a.lua:x", 9)
    ((encodeRecord (ascii "src/a.lua:x", 9)).take 18) (by decide) (by decide)
    ( List.take_prefix _ _) (by decide)).2 sampleWorld (ascii ".") |>.1

theorem parse_skips_bad_colon_count_witness :
    parseData sampleWorld (ascii ".")
        (encodeRecords ([(ascii "src/a.lua:3", 2)] ++ (ascii "noColonHere", 1)
          :: [(ascii "src/a.lua:4", 1)]))
      = parseData sampleWorld (ascii ".")
        (encodeRecords ([(ascii "src/a.lua:3", 2)] ++ [(ascii "src/a.lua:4", 1)])) :=
  (parse_skips_bad_colon_count sampleWorld (ascii ".") [(ascii "src/a.lua:3", 2)]
    [(ascii "src/a.lua:4", 1)] (ascii "noColonHere", 1) (by decide) (by decide) (by decide)
    (by decide)).2.1

theorem parse_ignores_leading_at_witness :
    parseData sampleWorld (ascii ".")
        (encodeRecords [(ascii "@src/a.lua:3", 5), (ascii "src/a.lua:3", 2)])
      = parseData sampleWorld (ascii ".")
        (encodeRecords [(ascii "src/a.lua:3", 5), (ascii "src/a.lua:3", 2)])
    ∧ parseData sampleWorld (ascii ".")
        (encodeRecords [(ascii "@src/a.lua:3", 5), (ascii "src/a.lua:3", 2)])
      = some (.ok 2 [⟨ascii "a", ascii "/r/src/a.lua", [(3, 7)]⟩]) :=
  ⟨(parse_ignores_leading_at sampleWorld (ascii ".") [] [(ascii "src/a.lua:3", 2)]
    (ascii "src/a.lua:3") 5 1 (by decide) (by decide) (by decide)).2.1, by decide⟩

/-- C8, as the code has it. A complete record whose tag has exactly one colon and
whose line segment `strconv.Atoi` rejects is fatal: on a buffer of complete records
that holds it, `parse` returns failure, whatever follows it, unless the run over the
records in front of it ended in a panic. -/
theorem parse_fails_on_rejected_line (w : World) (root : Str) (pre post : List (Str × Nat))
    (r : Str × Nat) (hpre : ∀ x ∈ pre, Complete x) (hpost : ∀ x ∈ post, Complete x)
    (hr : Complete r) (hone : Count (TrimLeft r.1 64) 58 = 1)
    (hrej : Atoi ((Split (TrimLeft r.1 64) 58).getD 1 []) = none)
    (hreach : parseData w root (encodeRecords pre) ≠ some .panic) :
    parseData w root (encodeRecords (pre ++ r :: post)) = some .fail := by
  rw [parseData_encodeRecords w root pre hpre] at hreach
  rw [parseData_encodeRecords w root _ (complete_append_cons hpre hr hpost),
    runRecords_append]
  have hloc := locate_fail_of_Atoi w root r.1 hone hrej
  obtain ⟨str, count⟩ := r
  simp only at hloc
  cases hrun : runRecords w root pre 0 [] with
  | ok n1 fds1 => simp only [runRecords, hloc]
  | fail => rfl
  | panic => rw [hrun] at hreach; exact absurd rfl hreach

theorem parse_fails_on_rejected_line_witness :
    parseData sampleWorld (ascii ".")
        (encodeRecords ([(ascii "src/a.lua:3", 2)] ++ (ascii "src/a.lua:x", 1)
          :: [(ascii "src/a.lua:4", 1)]))
      = some .fail :=
  parse_fails_on_rejected_line sampleWorld (ascii ".") [(ascii "src/a.lua:3", 2)]
    [(ascii "src/a.lua:4", 1)] (ascii "src/a.lua:x", 1) (by decide) (by decide) (by decide)
    (by decide) (by decide) (by decide)

/-- C8 as stated fails: the tags `src/a.lua:-3` and `src/a.lua:+3` have one colon and a
line segment that is not a string of decimal digits, and `parse` accepts both, with
the line numbers -3 and 3. -/
theorem parse_accepts_signed_line :
    Count (TrimLeft (ascii "src/a.lua:-3") 64) 58 = 1
      ∧ (Split (TrimLeft (ascii "src/a.lua:-3") 64) 58).getD 1 [] = ascii "-3"
      ∧ parseData sampleWorld (ascii ".") (encodeRecords [(ascii "src/a.lua:-3", 5)])
          = some (.ok 1 [⟨ascii "a", ascii "/r/src/a.lua", [(-3, 5)]⟩])
      ∧ parseData sampleWorld (ascii ".") (encodeRecords [(ascii "src/a.lua:+3", 5)])
          = some (.ok 1 [⟨ascii "a", ascii "/r/src/a.lua", [(3, 5)]⟩]) := by
  decide

/-- C9 at a failing input. The tag `src/a.lua/b.lua:3` names a path below a regular
file; `os.Stat` fails with an error that is not not-exist, `fileExists` dereferences
the nil `FileInfo`, and `parse` ends in a panic where it should return failure. -/
theorem parse_panics_on_stat_error :
    Count (TrimLeft (ascii "src/a.lua/b.lua:3") 64) 58 = 1
      ∧ sampleWorld.stat (ascii "/r/src/a.lua/b.lua") = .failed
      ∧ fileExists sampleWorld (ascii "/r/src/a.lua/b.lua") = none
      ∧ parseData sampleWorld (ascii ".") (encodeRecords [(ascii "src/a.lua/b.lua:3", 5)])
          = some .panic := by
  decide

/-- When `os.Stat` never fails with an error other than not-exist, lines 89-114 return
failure exactly on the tags of `FatalTag` and never panic. -/
theorem locate_of_stat_answers (w : World) (root tag : Str)
    (hstat : ∀ p, w.stat p ≠ .failed) :
    (FatalTag w root tag ∧ locate w root tag = .fail)
      ∨ (¬ FatalTag w root tag
          ∧ (locate w root tag = .skip ∨ ∃ p l, locate w root tag = .found p l)) := by
  unfold FatalTag locate
  simp only
  by_cases hc : Count (TrimLeft tag 64) 58 = 1
  · have hlen : ¬ (Split (TrimLeft tag 64) 58).length < 2 := by
      rw [Split_length, hc]; omega
    simp only [hc, ne_eq, not_true_eq_false, if_false, hlen, true_and]
    cases ha : Atoi ((Split (TrimLeft tag 64) 58).getD 1 []) with
    | none => exact Or.inl ⟨Or.inl rfl, rfl⟩
    | some line =>
      cases hp : w.abs (root ++ [47] ++ (Split (TrimLeft tag 64) 58).getD 0 []) with
      | none => exact Or.inl ⟨Or.inr (Or.inl rfl), rfl⟩
      | some path =>
        simp only [reduceCtorEq, false_or, Option.some.injEq, exists_eq_left']
        unfold fileExists
        cases hs : w.stat path with
        | notExist => exact Or.inl ⟨Or.inl rfl, rfl⟩
        | failed => exact absurd hs (hstat path)
        | info d =>
          cases d with
          | true => exact Or.inl ⟨Or.inr rfl, rfl⟩
          | false =>
            refine Or.inr ⟨by simp, Or.inr ⟨path, line, rfl⟩⟩
  · refine Or.inr ⟨fun h => hc h.1, Or.inl ?_⟩
    simp only [hc, ne_eq, not_false_eq_true, if_true]

/-- What C9 says holds in every world in which `os.Stat` never fails with an error
other than not-exist: a buffer of complete records with a fatal tag makes `parse`
return failure, and a buffer without one makes it succeed. -/
theorem parse_fatal_of_stat_answers (w : World) (root : Str) (rs : List (Str × Nat))
    (hrs : ∀ r ∈ rs, Complete r) (hstat : ∀ p, w.stat p ≠ .failed) :
    ((∃ r ∈ rs, FatalTag w root r.1) → parseData w root (encodeRecords rs) = some .fail)
      ∧ ((∀ r ∈ rs, ¬ FatalTag w root r.1) →
          ∃ n fds, parseData w root (encodeRecords rs) = some (.ok n fds)) := by
  rw [parseData_encodeRecords w root rs hrs]
  generalize (0 : Nat) = n
  generalize ([] : List FileData) = fds
  clear hrs
  induction rs generalizing n fds with
  | nil =>
    exact ⟨fun ⟨r, hr, _⟩ => absurd hr (List.not_mem_nil r), fun _ => ⟨n, fds, rfl⟩⟩
  | cons r rs ih =>
    obtain ⟨str, count⟩ := r
    rcases locate_of_stat_answers w root str hstat with ⟨hf, hl⟩ | ⟨hf, hl | ⟨p, l, hl⟩⟩
    · constructor
      · intro _
        simp only [runRecords, hl]
      · intro h
        exact absurd hf (h (str, count) (List.mem_cons_self _ _))
    · simp only [runRecords, hl]
      constructor
      · rintro ⟨x, hx, hxf⟩
        simp only [List.mem_cons] at hx
        rcases hx with rfl | hx
        · exact absurd hxf hf
        · exact (ih n fds).1 ⟨x, hx, hxf⟩
      · intro h
        exact (ih n fds).2 (fun x hx => h x (List.mem_cons_of_mem _ hx))
    · simp only [runRecords, hl]
      constructor
      · rintro ⟨x, hx, hxf⟩
        simp only [List.mem_cons] at hx
        rcases hx with rfl | hx
        · exact absurd hxf hf
        · exact (ih _ _).1 ⟨x, hx, hxf⟩
      · intro h
        exact (ih _ _).2 (fun x hx => h x (List.mem_cons_of_mem _ hx))

/-! ## The summary of `calc` -/

theorem hasKey_iff (m : List (Int × Nat)) (k : Int) : hasKey m k = true ↔ k ∈ m.map Prod.fst := by
  unfold hasKey
  induction m with
  | nil => simp [lookup]
  | cons kv m ih =>
    obtain ⟨k1, v⟩ := kv
    by_cases h : k1 = k
    · simp [lookup, h]
    · have h1 : ¬ k = k1 := fun e => h e.symm
      simp only [lookup, h, if_false, ih, List.map_cons, List.mem_cons, h1, false_or]

theorem map_fst_bump (m : List (Int × Nat)) (k : Int) :
    (bump m k).map Prod.fst
      = if k ∈ m.map Prod.fst then m.map Prod.fst else m.map Prod.fst ++ [k] := by
  induction m with
  | nil => simp [bump]
  | cons kv m ih =>
    obtain ⟨k1, v⟩ := kv
    by_cases h : k1 = k
    · simp [bump, h]
    · have h1 : ¬ k = k1 := fun e => h e.symm
      simp only [bump, h, if_false, List.map_cons, ih, List.mem_cons, h1, false_or]
      split <;> simp

theorem bump_keys (m : List (Int × Nat)) (k : Int) (hm : (m.map Prod.fst).Nodup) :
    ((bump m k).map Prod.fst).Nodup ∧ keys (bump m k) = insert k (keys m) := by
  unfold keys
  rw [map_fst_bump]
  by_cases h : k ∈ m.map Prod.fst
  · simp only [h, if_true]
    refine ⟨hm, ?_⟩
    ext x
    simp only [List.mem_toFinset, Finset.mem_insert]
    constructor
    · exact fun hx => Or.inr hx
    · rintro (rfl | hx)
      · exact h
      · exact hx
  · simp only [h, if_false]
    constructor
    · rw [List.nodup_append]
      refine ⟨hm, List.nodup_singleton _, ?_⟩
      intro a ha hb
      simp only [List.mem_singleton] at hb
      subst hb
      exact h ha
    · ext x
      simp only [List.mem_toFinset, List.mem_append, List.mem_singleton, Finset.mem_insert]
      tauto

theorem foldl_bump_keys (nodes : List (Option Int)) (m : List (Int × Nat))
    (hm : (m.map Prod.fst).Nodup) :
    ((nodes.foldl (fun m n => match n with
        | none => m
        | some l => bump m l) m).map Prod.fst).Nodup
      ∧ keys (nodes.foldl (fun m n => match n with
        | none => m
        | some l => bump m l) m) = keys m ∪ statementLines nodes := by
  induction nodes generalizing m with
  | nil => exact ⟨hm, by simp [statementLines]⟩
  | cons nd nodes ih =>
    cases nd with
    | none =>
      simp only [List.foldl_cons]
      have := ih m hm
      simpa [statementLines] using this
    | some l =>
      simp only [List.foldl_cons]
      obtain ⟨h1, h2⟩ := bump_keys m l hm
      obtain ⟨h3, h4⟩ := ih (bump m l) h1
      refine ⟨h3, ?_⟩
      rw [h4, h2]
      ext x
      simp only [statementLines, List.filterMap_cons, id_eq, List.toFinset_cons,
        Finset.mem_union, Finset.mem_insert, List.mem_toFinset]
      tauto

/-- The map `validline` has one key per statement line. -/
theorem validline_keys (nodes : List (Option Int)) :
    keys (validline nodes) = statementLines nodes
      ∧ (validline nodes).length = (statementLines nodes).card := by
  obtain ⟨h1, h2⟩ := foldl_bump_keys nodes [] (by simp)
  have hk : keys (validline nodes) = statementLines nodes := by
    unfold validline
    rw [h2]
    simp [keys]
  refine ⟨hk, ?_⟩
  have h1a : ((validline nodes).map Prod.fst).Nodup := h1
  rw [← hk]
  unfold keys
  rw [List.toFinset_card_of_nodup h1a, List.length_map]

theorem padLoop_terminates (fuel m pre : Nat) (h : m < fuel) :
    ∃ r, padLoop fuel m pre = some r := by
  induction fuel generalizing m pre with
  | zero => omega
  | succ fuel ih =>
    simp only [padLoop]
    by_cases hm : m > 0
    · simp only [hm, if_true]
      exact ih (m / 10) (pre + 1) (by omega)
    · simp only [hm, if_false]
      exact ⟨pre, rfl⟩

theorem padWidth_terminates (f : FileData) : ∃ pre, padWidth f = some pre :=
  padLoop_terminates _ _ 0 (by omega)

theorem foldl_count (p : Nat → Bool) (l : List Nat) (a : Nat) :
    l.foldl (fun valid index => if p index then valid + 1 else valid) a
      = a + (l.filter p).length := by
  induction l generalizing a with
  | nil => simp
  | cons x l ih =>
    simp only [List.foldl_cons, ih, List.filter_cons]
    by_cases h : p x = true
    · simp only [h, if_true, List.length_cons]; omega
    · simp only [h, if_false]
      simp

theorem countValid_eq (line vl : List (Int × Nat)) (len : Nat) :
    countValid line vl len
      = ((List.range len).filter (fun index : Nat =>
          hasKey line ((index : Int) + 1) && hasKey vl ((index : Int) + 1))).length := by
  unfold countValid
  have := foldl_count
    (fun index : Nat => hasKey line ((index : Int) + 1) && hasKey vl ((index : Int) + 1))
    (List.range len) 0
  rw [Nat.zero_add] at this
  rw [← this]
  congr 1
  funext valid index
  cases hasKey line ((index : Int) + 1) <;> cases hasKey vl ((index : Int) + 1) <;> simp

/-- The loop of lines 225-234 counts the line numbers that are keys of both maps, when
the keys of the second are line numbers of the file. -/
theorem countValid_card (line vl : List (Int × Nat)) (len : Nat)
    (hrange : ∀ l ∈ keys vl, 1 ≤ l ∧ l ≤ (len : Int)) :
    countValid line vl len = (keys line ∩ keys vl).card := by
  rw [countValid_eq]
  set idx := (List.range len).filter
    (fun index : Nat => hasKey line ((index : Int) + 1) && hasKey vl ((index : Int) + 1))
    with hidx
  have hnodup : (idx.map (fun i : Nat => (i : Int) + 1)).Nodup := by
    apply List.Nodup.map
    · intro a b hab
      simp only at hab
      omega
    · exact (List.nodup_range len).filter _
  have hset : (idx.map (fun i : Nat => (i : Int) + 1)).toFinset = keys line ∩ keys vl := by
    ext x
    simp only [List.mem_toFinset, List.mem_map, Finset.mem_inter, hidx, List.mem_filter,
      List.mem_range, Bool.and_eq_true, hasKey_iff, keys]
    constructor
    · rintro ⟨i, ⟨_, h1, h2⟩, rfl⟩
      exact ⟨h1, h2⟩
    · rintro ⟨h1, h2⟩
      have hx := hrange x (by simpa [keys] using h2)
      refine ⟨(x - 1).toNat, ⟨by omega, ?_, ?_⟩, by omega⟩
      · have e : (((x - 1).toNat : Nat) : Int) + 1 = x := by omega
        rw [e]; exact h1
      · have e : (((x - 1).toNat : Nat) : Int) + 1 = x := by omega
        rw [e]; exact h2
  rw [← hset, List.toFinset_card_of_nodup hnodup, List.length_map]

/-- C10. For a file that `readfile` and `parseLua` read, with a non-empty statement
line set whose members are line numbers of the file, the summary of `calc` reports as
covered the number of line numbers that are keys of `lineCounts` and members of the
statement line set, as total the size of the statement line set, and as percentage
`covered * 100 / total` rounded down. -/
theorem calc_summary (w : World) (f : FileData) (showcode showfunc : Bool) (text : Str)
    (nodes : List (Option Int)) (hread : w.readFile f.path = some text)
    (hwalk : w.walk text = some nodes) (hne : (statementLines nodes).Nonempty)
    (hrange : ∀ l ∈ statementLines nodes, 1 ≤ l ∧ l ≤ ((readLines text).length : Int)) :
    ∃ shown, calcReport w f showcode true showfunc
      = some (.printed shown (some
          ((keys f.line ∩ statementLines nodes).card * 100 / (statementLines nodes).card,
            (keys f.line ∩ statementLines nodes).card, (statementLines nodes).card))) := by
  obtain ⟨hk, hlen⟩ := validline_keys nodes
  have hpos : (validline nodes).length ≠ 0 := by
    rw [hlen]; exact Finset.card_ne_zero.2 hne
  have hcv : countValid f.line (validline nodes) (readLines text).length
      = (keys f.line ∩ statementLines nodes).card := by
    rw [countValid_card f.line (validline nodes) _ (by rw [hk]; exact hrange), hk]
  have htotal : calcTotal f (readLines text) (validline nodes)
      = some ((keys f.line ∩ statementLines nodes).card * 100 / (statementLines nodes).card,
          (keys f.line ∩ statementLines nodes).card, (statementLines nodes).card) := by
    unfold calcTotal
    simp only [hcv]
    rw [if_neg hpos, hlen]
  obtain ⟨pre, hpre⟩ := padWidth_terminates f
  unfold calcReport readfile parseLua
  simp only [hread, hwalk]
  cases showcode with
  | true =>
    refine ⟨some (pre, listing f (readLines text)), ?_⟩
    simp only [if_true, hpre, Option.map_some', htotal]
  | false =>
    refine ⟨none, ?_⟩
    simp [htotal]

theorem calc_summary_witness :
    ∃ shown, calcReport luaWorld ⟨ascii "b", ascii "/r/b.lua", [(3, 12), (2, 4)]⟩ true true true
      = some (.printed shown (some (50, 1, 2))) := by
  have h := calc_summary luaWorld ⟨ascii "b", ascii "/r/b.lua", [(3, 12), (2, 4)]⟩ true true
    (ascii "x=1\n\ny=2") [some 1, none, some 3, some 3] (by decide) (by decide)
    (by decide) (by decide)
  have e1 : (statementLines [some 1, none, some 3, some 3]).card = 2 := by decide
  have e2 : (keys [(3, 12), (2, 4)] ∩ statementLines [some 1, none, some 3, some 3]).card
      = 1 := by decide
  simp only [e1, e2] at h
  exact h

/-! ## Stop conditions and termination of the decode loop -/

theorem readRecord_eq_spec (data : Str) (i : Nat) : readRecord data i = readRecordSpec data i := by
  unfold readRecord readRecordSpec
  simp only
  generalize littleEndian (slice data i (i + 4)) = strlen
  by_cases h1 : i + 4 > data.length
  · have h1a : data.length - i < 4 := by omega
    simp only [h1, h1a, if_true]
  · have h1a : ¬ data.length - i < 4 := by omega
    simp only [h1, h1a, if_false]
    by_cases h2 : i + 4 + strlen > data.length
    · have h2a : strlen > data.length - (i + 4) := by omega
      simp only [h2, h2a, if_true]
    · have h2a : ¬ strlen > data.length - (i + 4) := by omega
      simp only [h2, h2a, if_false]
      by_cases h4 : i + 4 + strlen + 8 > data.length
      · have h4a : data.length - (i + 4 + strlen) < 8 := by omega
        simp only [h4, h4a, if_true]
        split <;> rfl
      · have h4a : ¬ data.length - (i + 4 + strlen) < 8 := by omega
        have h3 : ¬ i + 4 + strlen ≥ data.length := by omega
        simp only [h4, h4a, h3, if_false]

theorem readRecordSpec_eq_none_iff (data : Str) (i : Nat) :
    readRecordSpec data i = none
      ↔ (data.length - i < 4
          ∨ littleEndian (slice data i (i + 4)) > data.length - (i + 4)
          ∨ data.length - (i + 4 + littleEndian (slice data i (i + 4))) < 8) := by
  unfold readRecordSpec
  simp only
  generalize littleEndian (slice data i (i + 4)) = strlen
  by_cases h1 : data.length - i < 4
  · simp [h1]
  · by_cases h2 : strlen > data.length - (i + 4)
    · simp [h1, h2]
    · by_cases h3 : data.length - (i + 4 + strlen) < 8
      · simp [h1, h2, h3]
      · simp [h1, h2, h3]

theorem decodeLoop_eq_spec (data : Str) (fuel i : Nat) :
    decodeLoop data fuel i = decodeLoopSpec data fuel i := by
  induction fuel generalizing i with
  | zero => rfl
  | succ fuel ih =>
    simp only [decodeLoop, decodeLoopSpec, readRecord_eq_spec]
    cases readRecordSpec data i with
    | none => rfl
    | some x =>
      obtain ⟨str, count, j⟩ := x
      simp only [ih]

/-- C17. The loop of `parse` breaks at an offset exactly when one of the three
documented conditions holds there (fewer than 4 bytes remain, the declared tag
length exceeds the remaining bytes, fewer than 8 bytes remain for the count); the
check `i >= len(data)` of line 79 is subsumed: each pass, and so the whole loop,
reads what a decoder with the three checks only reads. -/
theorem decode_stop_conditions (data : Str) (i : Nat) :
    (readRecord data i = none
        ↔ (data.length - i < 4
            ∨ littleEndian (slice data i (i + 4)) > data.length - (i + 4)
            ∨ data.length - (i + 4 + littleEndian (slice data i (i + 4))) < 8))
      ∧ readRecord data i = readRecordSpec data i
      ∧ (∀ fuel, decodeLoop data fuel i = decodeLoopSpec data fuel i)
      ∧ ∃ rs, decode data = some rs ∧ decodeLoopSpec data (data.length + 1) 0 = some rs := by
  refine ⟨?_, readRecord_eq_spec data i, fun fuel => decodeLoop_eq_spec data fuel i, ?_⟩
  · rw [readRecord_eq_spec]
    exact readRecordSpec_eq_none_iff data i
  · obtain ⟨rs, hrs⟩ := decode_total data
    refine ⟨rs, hrs, ?_⟩
    rw [← decodeLoop_eq_spec]
    exact hrs

/-- C19. The loop of `parse` terminates on every buffer: a pass at any offset either
breaks or moves the offset forward by at least 12 bytes without passing the end of
the buffer, and with the fuel that `parse` gives it the loop always ends, in a
`break` or a `return` (or the panic of `fileExists`), after at most
`len(data) / 12` records. -/
theorem parse_loop_terminates (data : Str) :
    (∀ i, readRecord data i = none
        ∨ ∃ str count j, readRecord data i = some (str, count, j)
            ∧ i + 12 ≤ j ∧ j ≤ data.length)
      ∧ (∃ rs, decode data = some rs ∧ 12 * rs.length ≤ data.length
          ∧ ∀ w root, parseData w root data = some (runRecords w root rs 0 [])) := by
  constructor
  · intro i
    cases h : readRecord data i with
    | none => exact Or.inl rfl
    | some x =>
      obtain ⟨str, count, j⟩ := x
      have := readRecord_some h
      exact Or.inr ⟨str, count, j, rfl, by omega, this.2.1⟩
  · obtain ⟨rs, hrs⟩ := decode_total data
    refine ⟨rs, hrs, ?_, fun w root => parseData_of_decode w root data rs hrs⟩
    have key : ∀ fuel i rs, decodeLoop data fuel i = some rs → i ≤ data.length →
        i + 12 * rs.length ≤ data.length := by
      intro fuel
      induction fuel with
      | zero => intro i rs h; simp [decodeLoop] at h
      | succ fuel ih =>
        intro i rs h hi
        simp only [decodeLoop] at h
        cases hr : readRecord data i with
        | none =>
          rw [hr] at h
          simp only [Option.some.injEq] at h
          subst h
          simpa using hi
        | some x =>
          obtain ⟨str, count, j⟩ := x
          rw [hr] at h
          simp only [Option.map_eq_some'] at h
          obtain ⟨rs1, h1, rfl⟩ := h
          have hj := readRecord_some hr
          have := ih j rs1 h1 hj.2.1
          simp only [List.length_cons]
          omega
    have := key _ 0 rs hrs (Nat.zero_le _)
    omega

/-! ## Key sets, point count and file count -/

theorem locate_eq_skip_iff (w : World) (root tag : Str) :
    locate w root tag = .skip ↔ Count (TrimLeft tag 64) 58 ≠ 1 := by
  constructor
  · intro h hc
    unfold locate at h
    simp only [hc, ne_eq, not_true_eq_false, if_false] at h
    repeat' split at h
    all_goals simp at h
  · exact locate_skip_of_count w root tag

/-- When the per-record part ends with `ok`, a line is a key of the entry of a path
exactly if it was one before or a record resolves to that path and line. -/
theorem runRecords_present (w : World) (root : Str) (rs : List (Str × Nat)) (n : Nat)
    (fds : List FileData) (n1 : Nat) (fds1 : List FileData)
    (h : runRecords w root rs n fds = .ok n1 fds1) (p : Str) (l : Int) :
    present fds1 p l = true
      ↔ (present fds p l = true ∨ ∃ r ∈ rs, locate w root r.1 = .found p l) := by
  induction rs generalizing n fds with
  | nil =>
    simp only [runRecords, Outcome.ok.injEq] at h
    rw [← h.2]
    simp
  | cons r rs ih =>
    obtain ⟨str, count⟩ := r
    simp only [runRecords] at h
    cases hl : locate w root str with
    | skip =>
      rw [hl] at h
      rw [ih n fds h]
      simp [hl]
    | fail => rw [hl] at h; simp at h
    | panic => rw [hl] at h; simp at h
    | found path line =>
      rw [hl] at h
      rw [ih (n + 1) _ h, present_merge]
      simp only [Bool.or_eq_true, Bool.and_eq_true, decide_eq_true_eq, List.mem_cons,
        exists_eq_or_imp, hl, Located.found.injEq]
      constructor
      · rintro ((h1 | ⟨rfl, rfl⟩) | h3)
        · exact Or.inl h1
        · exact Or.inr (Or.inl ⟨rfl, rfl⟩)
        · exact Or.inr (Or.inr h3)
      · rintro (h1 | ⟨rfl, rfl⟩ | h3)
        · exact Or.inl (Or.inl h1)
        · exact Or.inl (Or.inr ⟨rfl, rfl⟩)
        · exact Or.inr h3

/-- When the per-record part ends with `ok`, the counter went up by the number of
records with a one-colon tag, each of which resolved, and the paths of the entries
are the earlier ones and the resolved ones, without duplicates. -/
theorem runRecords_stats (w : World) (root : Str) (rs : List (Str × Nat)) (n : Nat)
    (fds : List FileData) (n1 : Nat) (fds1 : List FileData)
    (h : runRecords w root rs n fds = .ok n1 fds1) (hnd : (paths fds).Nodup) :
    n1 = n + oneColonCount rs
      ∧ n1 = n + (rs.filterMap (fun r => resolvedPath w root r.1)).length
      ∧ (paths fds1).toFinset = (paths fds).toFinset ∪ resolvedPaths w root rs
      ∧ (paths fds1).Nodup := by
  induction rs generalizing n fds with
  | nil =>
    simp only [runRecords, Outcome.ok.injEq] at h
    obtain ⟨rfl, rfl⟩ := h
    simp [oneColonCount, resolvedPaths, hnd]
  | cons r rs ih =>
    obtain ⟨str, count⟩ := r
    simp only [runRecords] at h
    cases hl : locate w root str with
    | skip =>
      rw [hl] at h
      have hc := (locate_eq_skip_iff w root str).1 hl
      obtain ⟨h1, h2, h3, h4⟩ := ih n fds h hnd
      refine ⟨?_, ?_, ?_, h4⟩
      · rw [h1]; simp [oneColonCount, List.countP_cons, hc]
      · rw [h2]; simp [List.filterMap_cons, resolvedPath, hl]
      · rw [h3]; simp [resolvedPaths, List.filterMap_cons, resolvedPath, hl]
    | fail => rw [hl] at h; simp at h
    | panic => rw [hl] at h; simp at h
    | found path line =>
      rw [hl] at h
      have hc : Count (TrimLeft str 64) 58 = 1 := by
        by_contra hne
        rw [locate_skip_of_count w root str hne] at hl
        simp at hl
      obtain ⟨h1, h2, h3, h4⟩ := ih (n + 1) _ h (nodup_paths_merge fds path line count hnd)
      refine ⟨?_, ?_, ?_, h4⟩
      · rw [h1]; simp [oneColonCount, List.countP_cons, hc]; omega
      · rw [h2]; simp [List.filterMap_cons, resolvedPath, hl]; omega
      · rw [h3, paths_merge]
        ext x
        by_cases hm : path ∈ paths fds
        · simp only [hm, if_true, resolvedPaths, List.filterMap_cons, resolvedPath, hl,
            List.toFinset_cons, Finset.mem_union, Finset.mem_insert, List.mem_toFinset]
          constructor
          · rintro (hx | hx)
            · exact Or.inl hx
            · exact Or.inr (Or.inr hx)
          · rintro (hx | rfl | hx)
            · exact Or.inl hx
            · exact Or.inl hm
            · exact Or.inr hx
        · simp only [hm, if_false, resolvedPaths, List.filterMap_cons, resolvedPath, hl,
            List.toFinset_cons, Finset.mem_union, Finset.mem_insert, List.mem_toFinset,
            List.mem_append, List.mem_singleton]
          tauto

theorem mem_resolvedPaths_iff (w : World) (root : Str) (rs : List (Str × Nat)) (p : Str) :
    p ∈ resolvedPaths w root rs ↔ ∃ r ∈ rs, ∃ l, ResolvesTo w root r.1 p l := by
  unfold resolvedPaths
  simp only [List.mem_toFinset, List.mem_filterMap]
  constructor
  · rintro ⟨r, hr, h⟩
    unfold resolvedPath at h
    cases hl : locate w root r.1 with
    | skip => rw [hl] at h; simp at h
    | fail => rw [hl] at h; simp at h
    | panic => rw [hl] at h; simp at h
    | found path line =>
      rw [hl] at h
      simp only [Option.some.injEq] at h
      subst h
      exact ⟨r, hr, line, (locate_found_iff w root r.1 path line).1 hl⟩
  · rintro ⟨r, hr, l, h⟩
    refine ⟨r, hr, ?_⟩
    unfold resolvedPath
    rw [(locate_found_iff w root r.1 p l).2 h]

theorem mem_keys_iff (m : List (Int × Nat)) (k : Int) : k ∈ keys m ↔ hasKey m k = true := by
  rw [hasKey_iff]
  simp [keys]

theorem countValid_congr (line1 line2 vl : List (Int × Nat)) (len : Nat)
    (h : ∀ k, hasKey line1 k = hasKey line2 k) :
    countValid line1 vl len = countValid line2 vl len := by
  unfold countValid
  congr 1
  funext valid index
  rw [h]

/-- C15. When `parse` succeeds, the key set of the map of the entry of a path `p` is
exactly the set of the line numbers of the decoded records that resolve to `p`,
whatever their counts; there is an entry for `p` exactly if some record resolves to
`p`; and the loop of `calc` that counts covered lines depends on the key set of the
map only, not on the count values. -/
theorem parse_key_sets (w : World) (root data : Str) (rs : List (Str × Nat)) (n : Nat)
    (fds : List FileData) (hdec : decode data = some rs)
    (hok : parseData w root data = some (.ok n fds)) (p : Str) :
    (∀ f, entry fds p = some f →
        ∀ l, l ∈ keys f.line ↔ ∃ r ∈ rs, ResolvesTo w root r.1 p l)
      ∧ (entry fds p = none ↔ ¬ ∃ r ∈ rs, ∃ l, ResolvesTo w root r.1 p l)
      ∧ (∀ line1 line2 vl len, (∀ k, hasKey line1 k = hasKey line2 k) →
          countValid line1 vl len = countValid line2 vl len) := by
  rw [parseData_of_decode w root data rs hdec] at hok
  simp only [Option.some.injEq] at hok
  refine ⟨?_, ?_, fun line1 line2 vl len h => countValid_congr line1 line2 vl len h⟩
  · intro f hf l
    have := runRecords_present w root rs 0 [] n fds hok p l
    have e1 : present fds p l = hasKey f.line l := by simp only [present, hf]
    have e2 : present [] p l = false := rfl
    rw [e1, e2] at this
    simp only [Bool.false_eq_true, false_or] at this
    rw [mem_keys_iff, this]
    constructor
    · rintro ⟨r, hr, h⟩
      exact ⟨r, hr, (locate_found_iff w root r.1 p l).1 h⟩
    · rintro ⟨r, hr, h⟩
      exact ⟨r, hr, (locate_found_iff w root r.1 p l).2 h⟩
  · obtain ⟨-, -, h3, -⟩ := runRecords_stats w root rs 0 [] n fds hok (by simp [paths])
    rw [entry_eq_none_iff, ← mem_resolvedPaths_iff, ← List.mem_toFinset, h3]
    simp [paths]

theorem parse_key_sets_witness :
    ((3 : Int) ∈ keys [(3, 0), (4, 2)]
      ↔ ∃ r ∈ [(ascii "src/a.lua:3", 0), (ascii "x", 9), (ascii "@src/a.lua:4", 2)],
          ResolvesTo sampleWorld (ascii ".") r.1 (ascii "/r/src/a.lua") 3)
    ∧ parseData sampleWorld (ascii ".")
        (encodeRecords [(ascii "src/a.lua:3", 0), (ascii "x", 9), (ascii "@src/a.lua:4", 2)])
      = some (.ok 2 [⟨ascii "a", ascii "/r/src/a.lua", [(3, 0), (4, 2)]⟩]) :=
  ⟨(parse_key_sets sampleWorld (ascii ".")
    (encodeRecords [(ascii "src/a.lua:3", 0), (ascii "x", 9), (ascii "@src/a.lua:4", 2)])
    [(ascii "src/a.lua:3", 0), (ascii "x", 9), (ascii "@src/a.lua:4", 2)] 2
    [⟨ascii "a", ascii "/r/src/a.lua", [(3, 0), (4, 2)]⟩] (by decide) (by decide)
    (ascii "/r/src/a.lua")).1 ⟨ascii "a", ascii "/r/src/a.lua", [(3, 0), (4, 2)]⟩ (by decide) 3,
    by decide⟩

/-- C18. When `parse` succeeds, the printed `total points` is the number of decoded
(complete) records whose tag, leading `@` stripped, has exactly one colon, the
printed `files` is the number of distinct canonical paths that those records resolve
to, and `files` is at most `total points`. -/
theorem parse_point_and_file_counts (w : World) (root data : Str) (rs : List (Str × Nat))
    (n : Nat) (fds : List FileData) (hdec : decode data = some rs)
    (hok : parseData w root data = some (.ok n fds)) :
    n = oneColonCount rs
      ∧ fds.length = (resolvedPaths w root rs).card
      ∧ (∀ p, p ∈ resolvedPaths w root rs ↔ ∃ r ∈ rs, ∃ l, ResolvesTo w root r.1 p l)
      ∧ fds.length ≤ n := by
  rw [parseData_of_decode w root data rs hdec] at hok
  simp only [Option.some.injEq] at hok
  obtain ⟨h1, h2, h3, h4⟩ := runRecords_stats w root rs 0 [] n fds hok (by simp [paths])
  have hlen : fds.length = (resolvedPaths w root rs).card := by
    have e : (paths fds).toFinset = resolvedPaths w root rs := by
      rw [h3]; simp [paths]
    rw [← e, List.toFinset_card_of_nodup h4]
    simp [paths]
  refine ⟨by simpa using h1, hlen, fun p => mem_resolvedPaths_iff w root rs p, ?_⟩
  rw [hlen, h2, Nat.zero_add]
  exact List.toFinset_card_le _

theorem parse_point_and_file_counts_witness :
    (3 : Nat) = oneColonCount [(ascii "src/a.lua:3", 0), (ascii "x", 9),
        (ascii "@src/a.lua:4", 2), (ascii "src/a.lua:3", 1)]
      ∧ [(⟨ascii "a", ascii "/r/src/a.lua", [(3, 1), (4, 2)]⟩ : FileData)].length ≤ 3 := by
  have h := parse_point_and_file_counts sampleWorld (ascii ".")
    (encodeRecords [(ascii "src/a.lua:3", 0), (ascii "x", 9), (ascii "@src/a.lua:4", 2),
      (ascii "src/a.lua:3", 1)] ++ [1, 2, 3])
    [(ascii "src/a.lua:3", 0), (ascii "x", 9), (ascii "@src/a.lua:4", 2),
      (ascii "src/a.lua:3", 1)] 3
    [⟨ascii "a", ascii "/r/src/a.lua", [(3, 1), (4, 2)]⟩] (by decide) (by decide)
  exact ⟨h.1, h.2.2.2⟩

/-! ## `readfile` -/

/-- The entries that lines 156-162 produce: one per newline, each ending in that
newline and holding no other, then the rest of the text. -/
theorem readLines_structure (text : Str) :
    ∃ init last, readLines text = init ++ [last]
      ∧ init.length = Count text 10
      ∧ (∀ l ∈ init, ∃ body, l = body ++ [10] ∧ (10 : Byte) ∉ body)
      ∧ (10 : Byte) ∉ last := by
  induction text with
  | nil => exact ⟨[], [], rfl, rfl, by simp, by simp⟩
  | cons b bs ih =>
    obtain ⟨init, last, h1, h2, h3, h4⟩ := ih
    by_cases hb : b = 10
    · subst hb
      refine ⟨[10] :: init, last, ?_, ?_, ?_, h4⟩
      · simp [readLines, h1]
      · simp [Count, h2] at h2 ⊢
      · intro l hl
        simp only [List.mem_cons] at hl
        rcases hl with rfl | hl
        · exact ⟨[], rfl, by simp⟩
        · exact h3 l hl
    · have hcount : Count (b :: bs) 10 = Count bs 10 := by
        have hne : (b == 10) = false := by simpa using hb
        simp [Count, List.count_cons, hne]
      cases init with
      | nil =>
        refine ⟨[], b :: last, ?_, ?_, by simp, ?_⟩
        · simp only [readLines, hb, if_false, h1, List.nil_append]
        · rw [hcount, ← h2]
        · intro hmem
          simp only [List.mem_cons] at hmem
          rcases hmem with e | e
          · exact hb e.symm
          · exact h4 e
      | cons l0 init1 =>
        refine ⟨(b :: l0) :: init1, last, ?_, ?_, ?_, h4⟩
        · simp only [readLines, hb, if_false, h1, List.cons_append]
        · rw [hcount, ← h2]; simp
        · intro l hl
          simp only [List.mem_cons] at hl
          rcases hl with rfl | hl
          · obtain ⟨body, e, hbody⟩ := h3 l0 (List.mem_cons_self _ _)
            refine ⟨b :: body, by rw [e]; rfl, ?_⟩
            intro hmem
            simp only [List.mem_cons] at hmem
            rcases hmem with e1 | e1
            · exact hb e1.symm
            · exact hbody e1
          · exact h3 l (List.mem_cons_of_mem _ hl)

/-- The entries of lines 156-162 put together give the text back. -/
theorem readLines_flatten (text : Str) : (readLines text).flatten = text := by
  induction text with
  | nil => rfl
  | cons b bs ih =>
    by_cases hb : b = 10
    · simp [readLines, hb, ih]
    · simp only [readLines, hb, if_false]
      cases h : readLines bs with
      | nil => rw [h] at ih; simp at ih; simp [← ih]
      | cons l ls =>
        rw [h] at ih
        simp only [List.flatten_cons] at ih ⊢
        rw [List.cons_append, ih]

/-- C14. For a text with `k` newlines that `readfile` can open, `readfile` returns
`k + 1` entries in file order: the first `k` each end in a newline and hold no other,
the last one holds none, and their concatenation is the text. The last entry is the
final line when it lacks a terminator, and it is empty when the text ends with a
newline. -/
theorem readfile_entries (w : World) (filename text : Str)
    (hread : w.readFile filename = some text) :
    ∃ init last, readfile w filename = (init ++ [last], true)
      ∧ init.length = Count text 10
      ∧ (init ++ [last]).length = Count text 10 + 1
      ∧ (∀ l ∈ init, ∃ body, l = body ++ [10] ∧ (10 : Byte) ∉ body)
      ∧ (10 : Byte) ∉ last
      ∧ (init ++ [last]).flatten = text
      ∧ (text.getLast? = some 10 → last = [])
      ∧ (∀ b, text.getLast? = some b → b ≠ 10 → last.getLast? = some b) := by
  obtain ⟨init, last, h1, h2, h3, h4⟩ := readLines_structure text
  have hflat : (init ++ [last]).flatten = text := by rw [← h1]; exact readLines_flatten text
  have htext : text = init.flatten ++ last := by
    rw [← hflat]; simp
  have hlast : ∀ b, text.getLast? = some b → b ≠ 10 → last.getLast? = some b := by
    intro b hb hne
    cases hl : last.getLast? with
    | some c =>
      rw [htext, List.getLast?_append, hl] at hb
      simpa using hb
    | none =>
      exfalso
      have hnil : last = [] := by simpa using hl
      rw [htext, hnil, List.append_nil] at hb
      obtain ⟨ys, hys⟩ := List.getLast?_eq_some_iff.1 hb
      have hmem : b ∈ init.flatten := by rw [hys]; simp
      obtain ⟨l, hl1, hl2⟩ := List.mem_flatten.1 hmem
      -- the last byte of the concatenation is the newline of the last entry
      cases hi : init.getLast? with
      | none =>
        have : init = [] := by simpa using hi
        rw [this] at hl1
        simp at hl1
      | some l9 =>
        obtain ⟨init0, hinit0⟩ := List.getLast?_eq_some_iff.1 hi
        obtain ⟨body, hbody, -⟩ := h3 l9 (List.mem_of_getLast?_eq_some hi)
        have e : init.flatten = (init0.flatten ++ body) ++ [10] := by
          rw [hinit0, hbody]; simp
        rw [e] at hys
        have := List.append_inj_right' hys rfl
        simp only [List.cons.injEq, and_true] at this
        exact hne this.symm
  refine ⟨init, last, ?_, h2, by simp [h2], h3, h4, hflat, ?_, hlast⟩
  · unfold readfile
    rw [hread]
    simp only [h1]
  · intro h10
    cases hl : last.getLast? with
    | none => simpa using hl
    | some c =>
      exfalso
      rw [htext, List.getLast?_append, hl] at h10
      simp only [Option.or_some, Option.some.injEq] at h10
      subst h10
      exact h4 (List.mem_of_getLast?_eq_some hl)

theorem readfile_entries_witness :
    ∃ init last, readfile luaWorld (ascii "/r/b.lua") = (init ++ [last], true)
      ∧ init.length = 2 ∧ last.getLast? = some 50 := by
  obtain ⟨init, last, h1, h2, -, -, -, -, -, h8⟩ :=
    readfile_entries luaWorld (ascii "/r/b.lua") (ascii "x=1\n\ny=2") (by decide)
  exact ⟨init, last, h1, by rw [h2]; decide, h8 50 (by decide) (by decide)⟩

/-! ## Bounds of the summary and the padding width -/

/-- The loop of lines 225-234 counts at most as many positions as the second map has
keys. -/
theorem countValid_le (line vl : List (Int × Nat)) (len : Nat) :
    countValid line vl len ≤ (keys vl).card := by
  rw [countValid_eq]
  set idx := (List.range len).filter
    (fun index : Nat => hasKey line ((index : Int) + 1) && hasKey vl ((index : Int) + 1))
    with hidx
  have hnodup : (idx.map (fun i : Nat => (i : Int) + 1)).Nodup := by
    apply List.Nodup.map
    · intro a b hab
      simp only at hab
      omega
    · exact (List.nodup_range len).filter _
  have hsub : (idx.map (fun i : Nat => (i : Int) + 1)).toFinset ⊆ keys vl := by
    intro x hx
    simp only [List.mem_toFinset, List.mem_map, hidx, List.mem_filter, List.mem_range,
      Bool.and_eq_true] at hx
    obtain ⟨i, ⟨_, _, h2⟩, rfl⟩ := hx
    exact (mem_keys_iff vl _).2 h2
  have := Finset.card_le_card hsub
  rw [List.toFinset_card_of_nodup hnodup, List.length_map] at this
  exact this

/-- Whenever `calc` prints a summary, its numbers are those of lines 225-235 and lie
within the bounds. -/
theorem calcReport_printed_bounds (w : World) (f : FileData) (showcode showfunc : Bool)
    (shown : Option (Nat × List (Option Nat × Str))) (pct covered total : Nat)
    (h : calcReport w f showcode true showfunc
      = some (.printed shown (some (pct, covered, total)))) :
    ∃ text nodes, w.readFile f.path = some text ∧ w.walk text = some nodes
      ∧ covered = countValid f.line (validline nodes) (readLines text).length
      ∧ total = (statementLines nodes).card
      ∧ 0 ≤ covered ∧ covered ≤ total ∧ 0 ≤ pct ∧ pct ≤ 100 := by
  unfold calcReport readfile parseLua at h
  cases hread : w.readFile f.path with
  | none =>
    rw [hread] at h
    cases hpart : w.readPartial f.path with
    | none => rw [hpart] at h; simp at h
    | some t => rw [hpart] at h; simp at h
  | some text =>
    rw [hread] at h
    simp only at h
    cases hwalk : w.walk text with
    | none => rw [hwalk] at h; simp at h
    | some nodes =>
      rw [hwalk] at h
      simp only at h
      obtain ⟨hk, hlen⟩ := validline_keys nodes
      have hle := countValid_le f.line (validline nodes) (readLines text).length
      rw [hk] at hle
      refine ⟨text, nodes, rfl, hwalk, ?_⟩
      split at h
      · simp at h
      · rename_i lst hshown
        simp only [if_true] at h
        cases ht : calcTotal f (readLines text) (validline nodes) with
        | none => rw [ht] at h; simp at h
        | some t =>
          rw [ht] at h
          simp only [Option.some.injEq, CalcResult.printed.injEq, Prod.mk.injEq] at h
          obtain ⟨-, rfl⟩ := h
          unfold calcTotal at ht
          simp only at ht
          split at ht
          · simp at ht
          · simp only [Option.some.injEq, Prod.mk.injEq] at ht
            obtain ⟨h1, h2, h3⟩ := ht
            subst h2
            rw [hlen] at h3 h1
            subst h3
            refine ⟨rfl, rfl, Nat.zero_le _, hle, Nat.zero_le _, ?_⟩
            rw [← h1]
            exact Nat.div_le_of_le_mul (by omega)

/-- With a statement line set that is not empty, `calc` with `showtotal` prints the
summary of lines 225-235. -/
theorem calcReport_showtotal (w : World) (f : FileData) (showcode showfunc : Bool)
    (text : Str) (nodes : List (Option Int)) (hread : w.readFile f.path = some text)
    (hwalk : w.walk text = some nodes) (hne : (validline nodes).length ≠ 0) :
    ∃ shown, calcReport w f showcode true showfunc
      = some (.printed shown (some
          (countValid f.line (validline nodes) (readLines text).length * 100
              / (validline nodes).length,
            countValid f.line (validline nodes) (readLines text).length,
            (validline nodes).length))) := by
  have htotal : calcTotal f (readLines text) (validline nodes)
      = some (countValid f.line (validline nodes) (readLines text).length * 100
              / (validline nodes).length,
            countValid f.line (validline nodes) (readLines text).length,
            (validline nodes).length) := by
    unfold calcTotal
    simp only
    rw [if_neg hne]
  obtain ⟨pre, hpre⟩ := padWidth_terminates f
  unfold calcReport readfile parseLua
  simp only [hread, hwalk]
  cases showcode with
  | true =>
    refine ⟨some (pre, listing f (readLines text)), ?_⟩
    simp only [if_true, hpre, Option.map_some', htotal]
  | false =>
    refine ⟨none, ?_⟩
    simp [htotal]

/-- C11. For any file that `calc` can read and parse, any recorded line counts and
any statement line set: the number of covered lines that the summary loop computes is
at most the size of the statement line set; when that set is not empty the summary
is printed with `0 ≤ covered ≤ total` and `0 ≤ percentage ≤ 100`; and every summary
that `calc` prints satisfies these bounds (the numbers are natural numbers, so the
lower bounds hold by type). -/
theorem calc_summary_bounds (w : World) (f : FileData) (showcode showfunc : Bool)
    (text : Str) (nodes : List (Option Int)) (hread : w.readFile f.path = some text)
    (hwalk : w.walk text = some nodes) :
    countValid f.line (validline nodes) (readLines text).length ≤ (statementLines nodes).card
      ∧ ((statementLines nodes).Nonempty →
          ∃ shown pct covered, calcReport w f showcode true showfunc
              = some (.printed shown (some (pct, covered, (statementLines nodes).card)))
            ∧ 0 ≤ covered ∧ covered ≤ (statementLines nodes).card ∧ 0 ≤ pct ∧ pct ≤ 100)
      ∧ (∀ shown pct covered total, calcReport w f showcode true showfunc
              = some (.printed shown (some (pct, covered, total))) →
            total = (statementLines nodes).card
              ∧ 0 ≤ covered ∧ covered ≤ total ∧ 0 ≤ pct ∧ pct ≤ 100) := by
  obtain ⟨hk, hlen⟩ := validline_keys nodes
  have hle := countValid_le f.line (validline nodes) (readLines text).length
  rw [hk] at hle
  have hall : ∀ shown pct covered total, calcReport w f showcode true showfunc
        = some (.printed shown (some (pct, covered, total))) →
      total = (statementLines nodes).card
        ∧ 0 ≤ covered ∧ covered ≤ total ∧ 0 ≤ pct ∧ pct ≤ 100 := by
    intro shown pct covered total h
    obtain ⟨text1, nodes1, h1, h2, -, h4, h5, h6, h7, h8⟩ :=
      calcReport_printed_bounds w f showcode showfunc shown pct covered total h
    rw [hread] at h1
    simp only [Option.some.injEq] at h1
    subst h1
    rw [hwalk] at h2
    simp only [Option.some.injEq] at h2
    subst h2
    exact ⟨h4, h5, h6, h7, h8⟩
  refine ⟨hle, ?_, hall⟩
  intro hne
  have hpos : (validline nodes).length ≠ 0 := by
    rw [hlen]; exact Finset.card_ne_zero.2 hne
  obtain ⟨shown, hs⟩ := calcReport_showtotal w f showcode showfunc text nodes hread hwalk hpos
  rw [hlen] at hs
  obtain ⟨-, h5, h6, h7, h8⟩ := hall _ _ _ _ hs
  exact ⟨shown, _, _, hs, h5, h6, h7, h8⟩

theorem calc_summary_bounds_witness :
    countValid [(3, 12), (2, 4)] (validline [some 1, none, some 3, some 3])
        (readLines (ascii "x=1\n\ny=2")).length
      ≤ (statementLines [some 1, none, some 3, some 3]).card
    ∧ ∃ shown pct covered,
        calcReport luaWorld ⟨ascii "b", ascii "/r/b.lua", [(3, 12), (2, 4)]⟩ true true true
          = some (.printed shown (some (pct, covered,
              (statementLines [some 1, none, some 3, some 3]).card)))
        ∧ 0 ≤ covered ∧ covered ≤ (statementLines [some 1, none, some 3, some 3]).card
        ∧ 0 ≤ pct ∧ pct ≤ 100 :=
  ⟨(calc_summary_bounds luaWorld ⟨ascii "b", ascii "/r/b.lua", [(3, 12), (2, 4)]⟩ true true
      (ascii "x=1\n\ny=2") [some 1, none, some 3, some 3] (by decide) (by decide)).1,
    (calc_summary_bounds luaWorld ⟨ascii "b", ascii "/r/b.lua", [(3, 12), (2, 4)]⟩ true true
      (ascii "x=1\n\ny=2") [some 1, none, some 3, some 3] (by decide) (by decide)).2.1
      (by decide)⟩

/-- With an empty statement line set the summary of `calc` divides by zero: `calc`
with `showtotal` ends in a panic, whatever the recorded counts. -/
theorem calcReport_panics_of_no_statement (w : World) (f : FileData)
    (showcode showfunc : Bool) (text : Str) (nodes : List (Option Int))
    (hread : w.readFile f.path = some text) (hwalk : w.walk text = some nodes)
    (hempty : statementLines nodes = ∅) :
    ∃ shown, calcReport w f showcode true showfunc = some (.panic shown) := by
  obtain ⟨hk, hlen⟩ := validline_keys nodes
  have hzero : (validline nodes).length = 0 := by rw [hlen, hempty]; rfl
  have htotal : calcTotal f (readLines text) (validline nodes) = none := by
    unfold calcTotal
    simp only [hzero, if_true]
  obtain ⟨pre, hpre⟩ := padWidth_terminates f
  unfold calcReport readfile parseLua
  simp only [hread, hwalk]
  cases showcode with
  | true =>
    refine ⟨some (pre, listing f (readLines text)), ?_⟩
    simp only [if_true, hpre, Option.map_some', htotal]
  | false =>
    refine ⟨none, ?_⟩
    simp [htotal]

/-- C12 at a failing input. For the empty source file `/r/empty.lua` and for the
source `/r/c.lua` that holds a comment only, the statement line set is empty and
`calc` with `showtotal` ends in the integer-divide-by-zero panic of line 235, with
or without the listing. -/
theorem calcReport_empty_file_panics :
    statementLines [] = ∅
      ∧ calcReport emptyLuaWorld ⟨ascii "empty", ascii "/r/empty.lua", [(1, 3)]⟩ true true true
          = some (.panic (some (1, [(some 3, [])])))
      ∧ calcReport emptyLuaWorld ⟨ascii "empty", ascii "/r/empty.lua", [(1, 3)]⟩ false true true
          = some (.panic none)
      ∧ calcReport emptyLuaWorld ⟨ascii "c", ascii "/r/c.lua", []⟩ false true true
          = some (.panic none) := by
  decide

/-- The loop of lines 202-206 ends with the largest of the start value and the
values of the map. -/
theorem foldl_max_spec (l : List (Int × Nat)) (a : Nat) :
    a ≤ l.foldl (fun m kv => if kv.2 > m then kv.2 else m) a
      ∧ (∀ kv ∈ l, kv.2 ≤ l.foldl (fun m kv => if kv.2 > m then kv.2 else m) a)
      ∧ (l.foldl (fun m kv => if kv.2 > m then kv.2 else m) a = a
          ∨ ∃ kv ∈ l, kv.2 = l.foldl (fun m kv => if kv.2 > m then kv.2 else m) a) := by
  induction l generalizing a with
  | nil => simp
  | cons x l ih =>
    simp only [List.foldl_cons, List.mem_cons, forall_eq_or_imp, exists_eq_or_imp]
    by_cases hx : x.2 > a
    · simp only [hx, if_true]
      obtain ⟨h1, h2, h3⟩ := ih x.2
      refine ⟨by omega, ⟨h1, h2⟩, ?_⟩
      rcases h3 with h3 | h3
      · exact Or.inr (Or.inl h3.symm)
      · exact Or.inr (Or.inr h3)
    · simp only [hx, if_false]
      obtain ⟨h1, h2, h3⟩ := ih a
      refine ⟨h1, ⟨by omega, h2⟩, ?_⟩
      rcases h3 with h3 | h3
      · exact Or.inl h3
      · exact Or.inr (Or.inr h3)

/-- The value `maxpre` of lines 201-206 is the largest recorded count, and 0 exactly
when no count is positive. -/
theorem maxpre_spec (line : List (Int × Nat)) :
    (∀ kv ∈ line, kv.2 ≤ maxpre line)
      ∧ (maxpre line = 0 ∨ ∃ kv ∈ line, kv.2 = maxpre line)
      ∧ (maxpre line = 0 ↔ ∀ kv ∈ line, kv.2 = 0) := by
  obtain ⟨-, h2, h3⟩ := foldl_max_spec line 0
  refine ⟨h2, h3, ?_⟩
  constructor
  · intro h0 kv hkv
    have := h2 kv hkv
    unfold maxpre at h0
    omega
  · intro hall
    rcases h3 with h3 | ⟨kv, hkv, h3⟩
    · exact h3
    · unfold maxpre
      rw [← h3]
      exact hall kv hkv

/-- The loop of lines 208-211 started on a positive value `m` adds to `pre` the
number of decimal digits of `m`. -/
theorem padLoop_digits (fuel m pre : Nat) (hfuel : m < fuel) (hpos : 0 < m) :
    ∃ d, padLoop fuel m pre = some (pre + d) ∧ 1 ≤ d ∧ 10 ^ (d - 1) ≤ m ∧ m < 10 ^ d := by
  induction fuel generalizing m pre with
  | zero => omega
  | succ fuel ih =>
    simp only [padLoop, gt_iff_lt, hpos, if_true]
    by_cases hsmall : m / 10 = 0
    · have hm : m < 10 := by omega
      obtain ⟨fuel, rfl⟩ : ∃ k, fuel = k + 1 := ⟨fuel - 1, by omega⟩
      refine ⟨1, ?_, le_refl 1, by simpa using hpos, by simpa using hm⟩
      simp [padLoop, hsmall]
    · obtain ⟨d, h1, h2, h3, h4⟩ := ih (m / 10) (pre + 1) (by omega) (by omega)
      refine ⟨d + 1, ?_, by omega, ?_, ?_⟩
      · rw [h1]; congr 1; omega
      · have e : d + 1 - 1 = (d - 1) + 1 := by omega
        rw [e, pow_succ]
        omega
      · rw [pow_succ]
        omega

theorem padLoop_zero (fuel pre : Nat) (hfuel : 0 < fuel) : padLoop fuel 0 pre = some pre := by
  obtain ⟨fuel, rfl⟩ : ∃ k, fuel = k + 1 := ⟨fuel - 1, by omega⟩
  simp [padLoop]

/-- C13, as the code has it. The padding width that `calc` computes is at least 1
exactly when some recorded count is positive; for an entry with no recorded lines or
with zero counts only it is 0. The digit loop always ends. -/
theorem padWidth_pos_iff (f : FileData) :
    ∃ pre, padWidth f = some pre
      ∧ (1 ≤ pre ↔ 0 < maxpre f.line)
      ∧ ((∀ kv ∈ f.line, kv.2 = 0) → pre = 0)
      ∧ ((∃ kv ∈ f.line, 0 < kv.2) → 1 ≤ pre) := by
  obtain ⟨hle, -, hzero⟩ := maxpre_spec f.line
  by_cases hpos : 0 < maxpre f.line
  · obtain ⟨d, h1, h2, -, -⟩ := padLoop_digits (maxpre f.line + 1) (maxpre f.line) 0
      (by omega) hpos
    refine ⟨0 + d, h1, ?_, ?_, fun _ => by omega⟩
    · constructor
      · exact fun _ => hpos
      · exact fun _ => by omega
    · intro hall
      have := hzero.2 hall
      omega
  · have h0 : maxpre f.line = 0 := by omega
    refine ⟨0, ?_, ?_, fun _ => rfl, ?_⟩
    · unfold padWidth
      rw [h0]
      exact padLoop_zero _ _ (by omega)
    · constructor
      · intro h; omega
      · intro h; omega
    · rintro ⟨kv, hkv, hkvpos⟩
      have := hle kv hkv
      omega

/-- C13 as stated fails: for an entry with no recorded lines, and for one whose
recorded counts are all 0, the padding width that `calc` computes is 0. -/
theorem padWidth_zero_examples :
    padWidth ⟨ascii "a", ascii "/r/src/a.lua", []⟩ = some 0
      ∧ padWidth ⟨ascii "a", ascii "/r/src/a.lua", [(3, 0), (7, 0)]⟩ = some 0
      ∧ calcReport luaWorld ⟨ascii "b", ascii "/r/b.lua", [(2, 0)]⟩ true false true
          = some (.printed (some (0, [(none, ascii "x=1"), (some 0, []), (none, ascii "y=2")]))
              none) := by
  decide

/-- C16. For an entry whose largest recorded count `m` is positive, the digit loop of
`calc` ends and the padding width `d` it computes is the number of decimal digits of
`m`: `10 ^ (d - 1) ≤ m < 10 ^ d`; `m` is the value of some recorded line and no
recorded value is larger. -/
theorem padWidth_digits (f : FileData) (hpos : 0 < maxpre f.line) :
    ∃ d, padWidth f = some d ∧ 1 ≤ d
      ∧ 10 ^ (d - 1) ≤ maxpre f.line ∧ maxpre f.line < 10 ^ d
      ∧ (∀ kv ∈ f.line, kv.2 ≤ maxpre f.line)
      ∧ (∃ kv ∈ f.line, kv.2 = maxpre f.line) := by
  obtain ⟨hle, hex, -⟩ := maxpre_spec f.line
  obtain ⟨d, h1, h2, h3, h4⟩ := padLoop_digits (maxpre f.line + 1) (maxpre f.line) 0
    (by omega) hpos
  refine ⟨d, ?_, h2, h3, h4, hle, ?_⟩
  · unfold padWidth
    rw [h1, Nat.zero_add]
  · rcases hex with h0 | h
    · omega
    · exact h

theorem padWidth_digits_witness :
    ∃ d, padWidth ⟨ascii "b", ascii "/r/b.lua", [(3, 120), (2, 4), (9, 999)]⟩ = some d
      ∧ 1 ≤ d ∧ 10 ^ (d - 1) ≤ 999 ∧ 999 < 10 ^ d := by
  obtain ⟨d, h1, h2, h3, h4, -, -⟩ :=
    padWidth_digits ⟨ascii "b", ascii "/r/b.lua", [(3, 120), (2, 4), (9, 999)]⟩ (by decide)
  have e : maxpre [(3, 120), (2, 4), (9, 999)] = 999 := by decide
  simp only [e] at h3 h4
  exact ⟨d, h1, h2, h3, h4⟩

end CLua
